import Mathlib

/-!
# A Bitcask-style append-only key-value store, shallowly embedded

This file embeds the storage engine of a persistent key-value store
(`server.py`): the on-disk record codec, the in-memory index, crash-recovery
replay (`_load_from_disk`), the operations `put`, `read`, `delete`,
`batch_put`, `read_key_range`, the compactor `_compact`, and the TCP request
handler's dispatch logic.  Files are byte lists (`List Nat`, each element a
byte value).  Keys and values are kept as their UTF-8 byte sequences; Python
string equality and lexicographic comparison coincide with byte-sequence
equality and byte-lexicographic comparison on UTF-8 encodings, so no
encoding/decoding of text is modelled.  Machine integers are `Nat` with
explicit `% 2^w` where the code packs them into fixed-width fields.
-/

/-- Big-endian encoding of `n` into `w` bytes (the final `w` bytes of `n`,
most significant first), as produced by Python `struct.pack` with `!Q`/`!I`
fields.  Out-of-range values are reduced modulo `2^(8w)` (Python raises
instead; theorems carry in-range hypotheses where this matters). -/
def beBytes : Nat → Nat → List Nat
  | 0, _ => []
  | w + 1, n => beBytes w (n / 256) ++ [n % 256]

/-- Big-endian read of a byte list, accumulator form. -/
def fromBeAux (acc : Nat) : List Nat → Nat
  | [] => acc
  | b :: bs => fromBeAux (256 * acc + b) bs

/-- Big-endian read of a byte list, as done by Python `struct.unpack`. -/
def fromBe (bs : List Nat) : Nat := fromBeAux 0 bs

/-- The 16-byte record header `struct.pack("!QII", timestamp, key_size,
value_size)`. -/
def packHeader (ts key_size value_size : Nat) : List Nat :=
  beBytes 8 ts ++ beBytes 4 key_size ++ beBytes 4 value_size

/-- A full on-disk record: header, key bytes, value bytes. -/
def encodeRecord (ts : Nat) (key value : List Nat) : List Nat :=
  packHeader ts key.length value.length ++ key ++ value

/-- The tombstone sentinel: the UTF-8 bytes of `"DELETED"`. -/
def DELETED : List Nat := [68, 69, 76, 69, 84, 69, 68]

/-- An index entry: `(file_position, entry_size, timestamp)`. -/
abbrev Entry := Nat × Nat × Nat

/-- The in-memory index, modelling the Python `OrderedDict`
`key -> (file_position, entry_size, timestamp)` as an association list in
insertion order. -/
abbrev Idx := List (List Nat × Entry)

/-- Dictionary lookup `self.keys[key]` / membership `key in self.keys`. -/
def alookup (idx : Idx) (k : List Nat) : Option Entry :=
  match idx with
  | [] => none
  | (k', e) :: rest => if k' = k then some e else alookup rest k

/-- Dictionary assignment `self.keys[key] = e`: replaces in place when the key
is present (dict order preserved), else appends at the end. -/
def aset (idx : Idx) (k : List Nat) (e : Entry) : Idx :=
  match idx with
  | [] => [(k, e)]
  | (k', e') :: rest => if k' = k then (k, e) :: rest else (k', e') :: aset rest k e

/-- The size that `self.deleted_size` grows by when `key` is written again:
the superseded entry's length, `0` when the key is new. -/
def oldSize (idx : Idx) (k : List Nat) : Nat :=
  match alookup idx k with
  | some (_, old_size, _) => old_size
  | none => 0

/-- One pass of the recovery loop of `_load_from_disk`, starting at `pos`
with the remaining `file` bytes.  Mirrors the Python loop body:
`f.read(16)` is `file.take 16`; an empty read breaks the loop; a short
(1–15 byte) read makes `struct.unpack` raise `struct.error`, modelled as
`Except.error ()`.  Short `f.read(key_size)`/`f.read(value_size)` at the tail
return fewer bytes, which `take`/`drop` reproduce; `f.tell()` advances by the
bytes actually read. -/
def loadLoop (file : List Nat) (pos : Nat) (idx : Idx) (ds dels : Nat) :
    Except Unit (Idx × Nat × Nat) :=
  if file = [] then .ok (idx, ds, dels)
  else if file.length < 16 then .error ()
  else
    let header := file.take 16
    let ts := fromBe (header.take 8)
    let key_size := fromBe ((header.drop 8).take 4)
    let value_size := fromBe ((header.drop 12).take 4)
    let rest := file.drop 16
    let key := rest.take key_size
    let rest2 := rest.drop key_size
    let value := rest2.take value_size
    let entry_size := 16 + key_size + value_size
    loadLoop (rest2.drop value_size) (pos + 16 + key.length + value.length)
      (aset idx key (pos, entry_size, ts)) (ds + entry_size) (dels + oldSize idx key)
termination_by file.length
decreasing_by
  simp only [List.length_drop]
  omega

/-- The persistent store `KeyValueStore`: the data file's byte content,
whether the file exists on disk (it is created lazily by the first append),
the in-memory index, and the two byte counters. -/
structure KeyValueStore where
  file : List Nat
  fileExists : Bool
  keys : Idx
  data_size : Nat
  deleted_size : Nat
deriving Repr, DecidableEq

/-- `_load_from_disk` on startup: empty state when the data file does not
exist, otherwise replay from offset 0. -/
def initStore : Option (List Nat) → Except Unit KeyValueStore
  | none => .ok ⟨[], false, [], 0, 0⟩
  | some f =>
    match loadLoop f 0 [] 0 0 with
    | .error e => .error e
    | .ok (idx, ds, dels) => .ok ⟨f, true, idx, ds, dels⟩

/-- A store started against no data file. -/
def freshStore : KeyValueStore := ⟨[], false, [], 0, 0⟩

/-- The compaction trigger `data_size > 0 and deleted_size / data_size >
COMPACTION_THRESHOLD` with threshold `0.5`; the float comparison is modelled
exactly as the rational inequality `2 * deleted_size > data_size`. -/
def compactionDue (s : KeyValueStore) : Bool :=
  0 < s.data_size && s.data_size < 2 * s.deleted_size

/-- The body of `_compact`'s copy loop: for each index entry in dict order,
read `size` bytes of the old file at `pos` (`old_f.seek(pos); old_f.read(size)`),
append them to the new file, and point the entry at the new position.
Returns the new file and the rewritten index. -/
def compactLoop (old : List Nat) : Idx → List Nat → List Nat × Idx
  | [], acc => (acc, [])
  | (k, (pos, size, ts)) :: rest, acc =>
    let entry_data := (old.drop pos).take size
    let new_pos := acc.length
    let res := compactLoop old rest (acc ++ entry_data)
    (res.1, (k, (new_pos, size, ts)) :: res.2)

/-- `_compact`: rewrite the file to the records referenced by the index,
atomically replace it, zero `deleted_size`, and set `data_size` to the new
file's length (`os.path.getsize`). -/
def compactStore (s : KeyValueStore) : KeyValueStore :=
  let res := compactLoop s.file s.keys []
  ⟨res.1, true, res.2, res.1.length, 0⟩

/-- Append one record and update index and counters: the shared tail of
`put`, `delete`, and each `batch_put` iteration.  `pos = f.tell()` is the
current end of file. -/
def appendRecord (s : KeyValueStore) (now : Nat) (key value : List Nat) :
    KeyValueStore :=
  let pos := s.file.length
  let entry_size := 16 + key.length + value.length
  ⟨s.file ++ encodeRecord now key value, true,
    aset s.keys key (pos, entry_size, now),
    s.data_size + entry_size,
    s.deleted_size + oldSize s.keys key⟩

/-- `put(key, value)`: consider compaction, then append the record at the end
of the file and install the new index entry, accounting the superseded entry
(if any) as garbage.  `now` is `int(time.time())`. -/
def KeyValueStore.put (s : KeyValueStore) (now : Nat) (key value : List Nat) :
    KeyValueStore :=
  let s := if compactionDue s then compactStore s else s
  let pos := s.file.length
  let entry_size := 16 + key.length + value.length
  ⟨s.file ++ packHeader now key.length value.length ++ key ++ value, true,
    aset s.keys key (pos, entry_size, now),
    s.data_size + entry_size,
    s.deleted_size + oldSize s.keys key⟩

/-- `read(key)`: `None` when the key is absent; otherwise re-read the header
at the stored offset, skip the key, read the value, and hide the tombstone.
A header shorter than 16 bytes would make `struct.unpack` raise, modelled as
`Except.error ()`. -/
def KeyValueStore.read (s : KeyValueStore) (key : List Nat) :
    Except Unit (Option (List Nat)) :=
  match alookup s.keys key with
  | none => .ok none
  | some (pos, _, _) =>
    let header := (s.file.drop pos).take 16
    if header.length < 16 then .error ()
    else
      let key_size := fromBe ((header.drop 8).take 4)
      let value_size := fromBe ((header.drop 12).take 4)
      let value := (s.file.drop (pos + 16 + key_size)).take value_size
      if value = DELETED then .ok none else .ok (some value)

/-- `delete(key)`: `False` when the key is absent; otherwise append a
tombstone record exactly as `put` does, then — only after the append —
consider compaction. -/
def KeyValueStore.delete (s : KeyValueStore) (now : Nat) (key : List Nat) :
    KeyValueStore × Bool :=
  match alookup s.keys key with
  | none => (s, false)
  | some _ =>
    let pos := s.file.length
    let entry_size := 16 + key.length + DELETED.length
    let s' : KeyValueStore :=
      ⟨s.file ++ packHeader now key.length DELETED.length ++ key ++ DELETED, true,
        aset s.keys key (pos, entry_size, now),
        s.data_size + entry_size,
        s.deleted_size + oldSize s.keys key⟩
    (if compactionDue s' then compactStore s' else s', true)

/-- The per-item loop of `batch_put`: one append stream, `pos = f.tell()`
before each item. -/
def batchLoop (s : KeyValueStore) (now : Nat) :
    List (List Nat × List Nat) → KeyValueStore
  | [] => s
  | (key, value) :: rest => batchLoop (appendRecord s now key value) now rest

/-- `batch_put(items)`: consider compaction once, then run the per-item
append-and-index-update sequence for every pair.  Python iterates a `dict`;
the model takes the pairs as a list in iteration order (a dict's keys are
distinct, but no theorem below needs that restriction). -/
def KeyValueStore.batch_put (s : KeyValueStore) (now : Nat)
    (items : List (List Nat × List Nat)) : KeyValueStore :=
  let s := if compactionDue s then compactStore s else s
  batchLoop s now items

/-- UTF-8 bytes of an ASCII string literal (for ASCII text, `Char.toNat` is
the UTF-8 byte). -/
def ascii (s : String) : List Nat := s.toList.map Char.toNat

/-- An abstract log record: the decoded content of one on-disk entry. -/
structure LogRecord where
  ts : Nat
  key : List Nat
  val : List Nat
deriving Repr, DecidableEq

/-- The widths under which a record's header packs without overflow
(`struct.pack` raises on wider values). -/
def RecordOK (r : LogRecord) : Prop :=
  r.ts < 2 ^ 64 ∧ r.key.length < 2 ^ 32 ∧ r.val.length < 2 ^ 32

/-- Total on-disk length of a record. -/
def recSize (r : LogRecord) : Nat := 16 + r.key.length + r.val.length

/-- Byte encoding of an abstract record. -/
def encodeRec (r : LogRecord) : List Nat := encodeRecord r.ts r.key r.val

/-- Byte encoding of a record sequence: the content of a log file consisting
of exactly these complete records. -/
def encodeAll : List LogRecord → List Nat
  | [] => []
  | r :: rs => encodeRec r ++ encodeAll rs

/-- Sum of the on-disk lengths of a record sequence. -/
def totalSize : List LogRecord → Nat
  | [] => 0
  | r :: rs => recSize r + totalSize rs

/-- The state threaded through recovery replay, abstractly: current offset,
index, and the two counters. -/
structure RepSt where
  pos : Nat
  idx : Idx
  ds : Nat
  dels : Nat
deriving Repr, DecidableEq

/-- One record's effect on the replay state: account the superseded entry (if
any) as garbage, install the new entry, advance offset and `data_size`. -/
def repStep (st : RepSt) (r : LogRecord) : RepSt :=
  ⟨st.pos + recSize r,
    aset st.idx r.key (st.pos, recSize r, r.ts),
    st.ds + recSize r,
    st.dels + oldSize st.idx r.key⟩

/-- Replay of a record sequence from a given state. -/
def replayRecs (rs : List LogRecord) (st : RepSt) : RepSt := rs.foldl repStep st

/-- The `(index, data_size, deleted_size)` triple `_load_from_disk` ends
with. -/
def stProj (st : RepSt) : Idx × Nat × Nat := (st.idx, st.ds, st.dels)

/-- The index entry of the last record with key `k`, replaying `rs` from
offset `pos0`. -/
def lastEntryFrom (pos0 : Nat) (k : List Nat) : List LogRecord → Option Entry
  | [] => none
  | r :: rs =>
    match lastEntryFrom (pos0 + recSize r) k rs with
    | some e => some e
    | none => if r.key = k then some (pos0, recSize r, r.ts) else none

/-- The index describing a file that contains `rs` once each, in order,
starting at offset `pos0`. -/
def buildIdx (pos0 : Nat) : List LogRecord → Idx
  | [] => []
  | r :: rs => (r.key, (pos0, recSize r, r.ts)) :: buildIdx (pos0 + recSize r) rs

/-- The value bytes of the record an index entry references (what `read`
returns before the tombstone check). -/
def entryValue (file : List Nat) (k : List Nat) (e : Entry) : List Nat :=
  (file.drop (e.1 + 16 + k.length)).take (e.2.1 - (16 + k.length))

/-- The abstract record an index entry references. -/
def entryRec (file : List Nat) (p : List Nat × Entry) : LogRecord :=
  ⟨p.2.2.2, p.1, entryValue file p.1 p.2⟩

/-- The records referenced by the index, in index order: what compaction
copies. -/
def liveRecs (file : List Nat) (idx : Idx) : List LogRecord :=
  idx.map (entryRec file)

/-- Does some index entry reference file offset `p`? -/
def referencedBy (idx : Idx) (p : Nat) : Bool :=
  idx.any fun q => q.2.1 = p

/-- Sum of the lengths of the records of `rs` (laid out from offset `pos`)
whose offset is not referenced by `idx`: the spec's characterisation of
`deleted_size`. -/
def unrefGarbage (idx : Idx) (pos : Nat) : List LogRecord → Nat
  | [] => 0
  | r :: rs =>
    (if referencedBy idx pos then 0 else recSize r) + unrefGarbage idx (pos + recSize r) rs

/-- Strict decoding of a whole log file into its complete records; `none` on
any torn tail. -/
def decodeFile (file : List Nat) : Option (List LogRecord) :=
  if file = [] then some []
  else if file.length < 16 then none
  else
    let header := file.take 16
    let ts := fromBe (header.take 8)
    let key_size := fromBe ((header.drop 8).take 4)
    let value_size := fromBe ((header.drop 12).take 4)
    let rest := file.drop 16
    if rest.length < key_size + value_size then none
    else
      match decodeFile ((rest.drop key_size).drop value_size) with
      | none => none
      | some rs => some (⟨ts, rest.take key_size, (rest.drop key_size).take value_size⟩ :: rs)
termination_by file.length
decreasing_by
  simp only [List.length_drop]
  omega

/-- Invariant 1: every index entry references a record that exists in the log
and decodes, at the stored offset, to that entry's timestamp and key with
the stored total length. -/
def EntryPoints (file : List Nat) (k : List Nat) (e : Entry) : Prop :=
  ∃ v, RecordOK ⟨e.2.2, k, v⟩ ∧ e.2.1 = 16 + k.length + v.length ∧
    (file.drop e.1).take e.2.1 = encodeRecord e.2.2 k v

/-- Invariant 1 of the spec, over a whole store. -/
def Inv1 (s : KeyValueStore) : Prop :=
  ∀ k e, alookup s.keys k = some e → EntryPoints s.file k e

/-- Invariant 2 of the spec: recovery replay of the current file terminates
without error and rebuilds exactly the current index. -/
def Inv2 (s : KeyValueStore) : Prop :=
  ∃ ds dels, loadLoop s.file 0 [] 0 0 = .ok (s.keys, ds, dels)

/-- Invariant 3 of the spec: `data_size` is the log file's byte length. -/
def Inv3 (s : KeyValueStore) : Prop := s.data_size = s.file.length

/-- Invariant 4 of the spec: garbage never exceeds the file size. -/
def Inv4 (s : KeyValueStore) : Prop := s.deleted_size ≤ s.data_size

/-- The index is a dictionary: its keys are pairwise distinct. -/
def NodupKeys (s : KeyValueStore) : Prop := (s.keys.map Prod.fst).Nodup

/-- A key is live when its index entry references a non-tombstone record. -/
def liveKey (s : KeyValueStore) (k : List Nat) : Prop :=
  ∃ e, alookup s.keys k = some e ∧ entryValue s.file k e ≠ DELETED

/-- The coupling invariant tying a store state to the abstract record
sequence its file holds: the file is exactly the encoding of `rs`, and
index and counters are exactly what replaying `rs` yields. -/
def SInv (s : KeyValueStore) (rs : List LogRecord) : Prop :=
  (∀ r ∈ rs, RecordOK r) ∧
  s.file = encodeAll rs ∧
  (s.fileExists = false → rs = []) ∧
  replayRecs rs ⟨0, [], 0, 0⟩ = ⟨totalSize rs, s.keys, s.data_size, s.deleted_size⟩

/-- An engine operation of the claims' operation sequences: `put`, `delete`,
`batch_put`, or closing and reopening the store (recovery). -/
inductive StoreOp where
  | put (now : Nat) (key value : List Nat)
  | del (now : Nat) (key : List Nat)
  | batch (now : Nat) (items : List (List Nat × List Nat))
  | reopen
deriving Repr, DecidableEq

/-- Width bounds under which the operation's `struct.pack` calls do not
raise. -/
def OpOK : StoreOp → Prop
  | .put now k v => now < 2 ^ 64 ∧ k.length < 2 ^ 32 ∧ v.length < 2 ^ 32
  | .del now k => now < 2 ^ 64 ∧ k.length < 2 ^ 32
  | .batch now items => now < 2 ^ 64 ∧ ∀ p ∈ items, p.1.length < 2 ^ 32 ∧ p.2.length < 2 ^ 32
  | .reopen => True

/-- Run one operation; `reopen` replays the data file as the constructor
does and can surface a replay error. -/
def applyOp (s : KeyValueStore) : StoreOp → Except Unit KeyValueStore
  | .put now k v => .ok (s.put now k v)
  | .del now k => .ok (s.delete now k).1
  | .batch now items => .ok (s.batch_put now items)
  | .reopen => initStore (if s.fileExists then some s.file else none)

/-- Run a sequence of operations, stopping at the first error. -/
def applyOps (s : KeyValueStore) : List StoreOp → Except Unit KeyValueStore
  | [] => .ok s
  | op :: ops =>
    match applyOp s op with
    | .error e => .error e
    | .ok s' => applyOps s' ops

/-- Is the operation a `put` or `delete` (the operations claim C3 ranges
over)? -/
def isPD : StoreOp → Prop
  | .put _ _ _ => True
  | .del _ _ => True
  | _ => False

/-- Does the operation write key `k` (a `put` of `k`, or a `batch_put` with
`k` among its items)? -/
def writesKey (k : List Nat) : StoreOp → Prop
  | .put _ k' _ => k' = k
  | .batch _ items => ∃ p ∈ items, p.1 = k
  | _ => False

/-- Lookup in the in-memory last-writer-wins model. -/
def mlookup : List (List Nat × List Nat) → List Nat → Option (List Nat)
  | [], _ => none
  | (k', v) :: rest, k => if k' = k then some v else mlookup rest k

/-- Insert-or-replace in the in-memory last-writer-wins model. -/
def mset : List (List Nat × List Nat) → List Nat → List Nat →
    List (List Nat × List Nat)
  | [], k, v => [(k, v)]
  | (k', v') :: rest, k, v =>
    if k' = k then (k, v) :: rest else (k', v') :: mset rest k v

/-- One step of the fresh in-memory model of claim C3: last writer wins per
key; a delete of a present key installs the tombstone value. -/
def modelApply (m : List (List Nat × List Nat)) : StoreOp →
    List (List Nat × List Nat)
  | .put _ k v => mset m k v
  | .del _ k => if (mlookup m k).isSome then mset m k DELETED else m
  | _ => m

/-- Fold the in-memory model over an operation sequence. -/
def modelRun' (m : List (List Nat × List Nat)) : List StoreOp →
    List (List Nat × List Nat)
  | [] => m
  | op :: ops => modelRun' (modelApply m op) ops

/-- The in-memory model after a whole operation sequence, from fresh. -/
def modelRun (ops : List StoreOp) : List (List Nat × List Nat) :=
  modelRun' [] ops

/-- Modelled from the spec for comparison with `KeyValueStore.delete` (claim
C6): a delete that considers compaction before the tombstone append as well
as after, as §4.6/§4.8 of the spec word it. -/
def deleteSpecC6 (s : KeyValueStore) (now : Nat) (key : List Nat) :
    KeyValueStore × Bool :=
  match alookup s.keys key with
  | none => (s, false)
  | some _ =>
    let s := if compactionDue s then compactStore s else s
    let s' := appendRecord s now key DELETED
    (if compactionDue s' then compactStore s' else s', true)

/-- Modelled from the spec for comparison with `KeyValueStore.batch_put`
(claim C6): a batch put that considers compaction before every item, as §4.8
of the spec words it. -/
def batchPutSpecC6 (s : KeyValueStore) (now : Nat) :
    List (List Nat × List Nat) → KeyValueStore
  | [] => s
  | (key, value) :: rest =>
    batchPutSpecC6
      (appendRecord (if compactionDue s then compactStore s else s) now key value)
      now rest

/-- Strict lexicographic byte-list order; on UTF-8 encodings this coincides
with Python's code-point string `<`. -/
def lexLt : List Nat → List Nat → Bool
  | [], [] => false
  | [], _ :: _ => true
  | _ :: _, [] => false
  | a :: as, b :: bs => a < b || (a = b && lexLt as bs)

/-- Python string `<=` on UTF-8 byte lists. -/
def lexLe (x y : List Nat) : Bool := lexLt x y || x = y

/-- `sorted(self.keys.keys())`: an ascending sort of the key list. -/
def sortKeys (l : List (List Nat)) : List (List Nat) :=
  List.insertionSort (fun a b => lexLe a b = true) l

/-- The value of the last record with key `k` in a record sequence: the
last-writer-wins reading of a log. -/
def lastRecVal : List LogRecord → List Nat → Option (List Nat)
  | [], _ => none
  | r :: rs, k =>
    match lastRecVal rs k with
    | some v => some v
    | none => if r.key = k then some r.val else none

/-- The value the index associates to a key: the value bytes of the record
the index entry references. -/
def keyView (s : KeyValueStore) (k : List Nat) : Option (List Nat) :=
  (alookup s.keys k).map (entryValue s.file k)

/-- The index contains `k` pointing at a complete tombstone record in the
file. -/
def TombEntry (s : KeyValueStore) (k : List Nat) : Prop :=
  k.length < 2 ^ 32 ∧
  ∃ pos ts, alookup s.keys k = some (pos, 16 + k.length + 7, ts) ∧
    (s.file.drop pos).take (16 + k.length + 7) = encodeRecord ts k DELETED

/-- An operation that neither writes key `k` nor reopens the store (claim C5
quantifies over these between a delete of `k` and a read of `k`). -/
def avoidsKey (k : List Nat) : StoreOp → Prop
  | .put _ k' _ => k' ≠ k
  | .del _ _ => True
  | .batch _ items => ∀ p ∈ items, p.1 ≠ k
  | .reopen => False

/-- The value-reading loop of `read_key_range`, over the snapshot
`(key, pos, size)` triples: re-read each record's header, skip the key, read
the value, and drop tombstones. -/
def rangeReadLoop (file : List Nat) : List (List Nat × Nat × Nat) →
    List (List Nat × List Nat)
  | [] => []
  | (key, pos, _) :: rest =>
    let header := (file.drop pos).take 16
    let key_size := fromBe ((header.drop 8).take 4)
    let value_size := fromBe ((header.drop 12).take 4)
    let value := (file.drop (pos + 16 + key_size)).take value_size
    if value = DELETED then rangeReadLoop file rest
    else (key, value) :: rangeReadLoop file rest

/-- `read_key_range(start_key, end_key)`: under the lock, snapshot the
`(key, position, size)` triples of the sorted keys lying in
`[start_key, end_key]`; then open the data file and read each value,
dropping tombstones.  Opening the file fails (`FileNotFoundError`) when it
has never been created, modelled as `Except.error ()`. -/
def KeyValueStore.read_key_range (s : KeyValueStore)
    (start_key end_key : List Nat) : Except Unit (List (List Nat × List Nat)) :=
  let keys_to_read :=
    (sortKeys (s.keys.map Prod.fst)).filterMap fun k =>
      if lexLe start_key k && lexLe k end_key then
        (alookup s.keys k).map fun e => (k, e.1, e.2.1)
      else none
  if s.fileExists then .ok (rangeReadLoop s.file keys_to_read) else .error ()

/-- ASCII whitespace bytes stripped by `str.strip()` (Python additionally
strips non-ASCII Unicode whitespace, which no request in the claims
contains). -/
def wsByte (b : Nat) : Bool :=
  b = 32 || b = 9 || b = 10 || b = 11 || b = 12 || b = 13

/-- `data.strip()` at the byte level. -/
def stripBytes (l : List Nat) : List Nat :=
  ((l.dropWhile wsByte).reverse.dropWhile wsByte).reverse

/-- `data.split(' ', 1)`: the bytes before the first space, and — when a
space occurs — the bytes after it. -/
def splitSpace1 : List Nat → List Nat × Option (List Nat)
  | [] => ([], none)
  | b :: rest =>
    if b = 32 then ([], some rest)
    else
      let (x, y) := splitSpace1 rest
      (b :: x, y)

/-- A lowercase hexadecimal digit byte. -/
def hexDigit (n : Nat) : Nat := if n < 10 then 48 + n else 87 + n

/-- JSON string escaping of `json.dumps` for one byte: `\"`, `\\`, and
`\u00XX` for control bytes.  (`ensure_ascii` additionally escapes non-ASCII
characters; no theorem below depends on the payload text.) -/
def jsonEscByte (b : Nat) : List Nat :=
  if b = 34 then [92, 34]
  else if b = 92 then [92, 92]
  else if b < 32 then [92, 117, 48, 48, hexDigit (b / 16), hexDigit (b % 16)]
  else [b]

/-- A JSON string literal for a byte sequence. -/
def jsonStr (s : List Nat) : List Nat :=
  [34] ++ (s.map jsonEscByte).foldr (· ++ ·) [] ++ [34]

/-- `json.dumps` of the `(key, value)` pair list, with its default `", "`
separators. -/
def jsonDump (l : List (List Nat × List Nat)) : List Nat :=
  let items := l.map fun p => [91] ++ jsonStr p.1 ++ [44, 32] ++ jsonStr p.2 ++ [93]
  [91] ++ (List.intersperse [44, 32] items).foldr (· ++ ·) [] ++ [93]

/-- `ERROR <detail>\n`. -/
def errLine (detail : List Nat) : List Nat :=
  ascii "ERROR " ++ detail ++ [10]

/-- CPython's message for `args[0]` on an empty `args`. -/
def indexErrMsg : List Nat := ascii "list index out of range"

/-- CPython's message for a 2-target unpack of a 1-element list. -/
def unpackErrMsg : List Nat := ascii "not enough values to unpack (expected 2, got 1)"

/-- CPython's message for `struct.unpack` on a short buffer. -/
def structErrMsg : List Nat := ascii "unpack requires a buffer of 16 bytes"

/-- CPython's message for opening a missing `store.dat`. -/
def fileErrMsg : List Nat :=
  ascii "[Errno 2] No such file or directory: " ++ [39] ++ ascii "store.dat" ++ [39]

/-- `ThreadedTCPRequestHandler.handle` on one received request, at the byte
level: strip, special-case `SHUTDOWN`, split off the command token, dispatch,
and format the response (the empty byte string when no branch assigns one).
Returns the response bytes sent by `sendall` and the engine state after the
call.  `now` is the wall clock passed through to the engine. -/
def handle (s : KeyValueStore) (now : Nat) (input : List Nat) :
    List Nat × KeyValueStore :=
  let data := stripBytes input
  if data = ascii "SHUTDOWN" then (ascii "OK" ++ [10], s)
  else
    let (command, args) := splitSpace1 data
    if command = ascii "PUT" then
      match args with
      | none => (errLine indexErrMsg, s)
      | some rest =>
        match splitSpace1 rest with
        | (key, some value) => (ascii "OK" ++ [10], s.put now key value)
        | (_, none) => (errLine unpackErrMsg, s)
    else if command = ascii "READ" then
      match args with
      | none => (errLine indexErrMsg, s)
      | some key =>
        match s.read key with
        | .error _ => (errLine structErrMsg, s)
        | .ok none => (ascii "OK NULL" ++ [10], s)
        | .ok (some v) => (ascii "OK " ++ v ++ [10], s)
    else if command = ascii "DELETE" then
      match args with
      | none => (errLine indexErrMsg, s)
      | some key =>
        let (s', found) := s.delete now key
        if found then (ascii "OK" ++ [10], s')
        else (ascii "ERROR Key not found" ++ [10], s')
    else if command = ascii "READRANGE" then
      match args with
      | none => (errLine indexErrMsg, s)
      | some rest =>
        match splitSpace1 rest with
        | (start_key, some end_key) =>
          match s.read_key_range start_key end_key with
          | .error _ => (errLine fileErrMsg, s)
          | .ok results => (ascii "OK " ++ jsonDump results ++ [10], s)
        | (_, none) => (errLine unpackErrMsg, s)
    else if command = ascii "BATCHPUT" then ([], s)
    else (ascii "ERROR Invalid command" ++ [10], s)

/-! ## Basic facts about the codec -/

theorem length_beBytes (w n : Nat) : (beBytes w n).length = w := by
  induction w generalizing n with
  | zero => rfl
  | succ w ih => simp [beBytes, ih]

theorem fromBeAux_append (acc : Nat) (xs ys : List Nat) :
    fromBeAux acc (xs ++ ys) = fromBeAux (fromBeAux acc xs) ys := by
  induction xs generalizing acc with
  | nil => rfl
  | cons b bs ih => simp [fromBeAux, ih]

theorem fromBeAux_beBytes (acc w n : Nat) :
    fromBeAux acc (beBytes w n) = acc * 256 ^ w + n % 256 ^ w := by
  induction w generalizing acc n with
  | zero => simp [beBytes, fromBeAux, Nat.mod_one]
  | succ w ih =>
    rw [beBytes, fromBeAux_append, ih]
    simp only [fromBeAux]
    have h256 : (256 : Nat) ^ (w + 1) = 256 * 256 ^ w := by ring
    rw [h256, Nat.mod_mul]
    ring

theorem fromBe_beBytes (w n : Nat) : fromBe (beBytes w n) = n % 256 ^ w := by
  simp [fromBe, fromBeAux_beBytes]

theorem fromBe_beBytes_of_lt {w n : Nat} (h : n < 256 ^ w) :
    fromBe (beBytes w n) = n := by
  rw [fromBe_beBytes, Nat.mod_eq_of_lt h]

theorem length_packHeader (ts ks vs : Nat) : (packHeader ts ks vs).length = 16 := by
  simp [packHeader, length_beBytes]

theorem length_encodeRecord (ts : Nat) (key value : List Nat) :
    (encodeRecord ts key value).length = 16 + key.length + value.length := by
  simp [encodeRecord, length_packHeader]
  omega

theorem length_encodeRec (r : LogRecord) : (encodeRec r).length = recSize r := by
  simp [encodeRec, recSize, length_encodeRecord]

theorem packHeader_take_8 (ts ks vs : Nat) :
    (packHeader ts ks vs).take 8 = beBytes 8 ts := by
  rw [packHeader, List.append_assoc, List.take_left' (length_beBytes 8 ts)]

theorem packHeader_drop_8 (ts ks vs : Nat) :
    (packHeader ts ks vs).drop 8 = beBytes 4 ks ++ beBytes 4 vs := by
  rw [packHeader, List.append_assoc, List.drop_left' (length_beBytes 8 ts)]

theorem packHeader_mid (ts ks vs : Nat) :
    ((packHeader ts ks vs).drop 8).take 4 = beBytes 4 ks := by
  rw [packHeader_drop_8, List.take_left' (length_beBytes 4 ks)]

theorem packHeader_drop_12 (ts ks vs : Nat) :
    ((packHeader ts ks vs).drop 12).take 4 = beBytes 4 vs := by
  have h : (12 : Nat) = 8 + 4 := by norm_num
  rw [h, ← List.drop_drop, packHeader_drop_8, List.drop_left' (length_beBytes 4 ks)]
  exact List.take_left' (length_beBytes 4 vs)

/-- Header fields of an in-range record decode back to themselves. -/
theorem unpack_pack (r : LogRecord) (h : RecordOK r) :
    fromBe ((packHeader r.ts r.key.length r.val.length).take 8) = r.ts ∧
    fromBe (((packHeader r.ts r.key.length r.val.length).drop 8).take 4) = r.key.length ∧
    fromBe (((packHeader r.ts r.key.length r.val.length).drop 12).take 4) = r.val.length := by
  obtain ⟨h1, h2, h3⟩ := h
  refine ⟨?_, ?_, ?_⟩
  · rw [packHeader_take_8, fromBe_beBytes_of_lt (by norm_num at h1 ⊢; omega)]
  · rw [packHeader_mid, fromBe_beBytes_of_lt (by norm_num at h2 ⊢; omega)]
  · rw [packHeader_drop_12, fromBe_beBytes_of_lt (by norm_num at h3 ⊢; omega)]

/-! ## Replay of well-formed logs -/

theorem loadLoop_nil (pos : Nat) (idx : Idx) (ds dels : Nat) :
    loadLoop [] pos idx ds dels = .ok (idx, ds, dels) := by
  rw [loadLoop]
  simp

theorem encodeRec_append_take (r : LogRecord) (tail : List Nat) :
    (encodeRec r ++ tail).take 16 = packHeader r.ts r.key.length r.val.length := by
  rw [encodeRec, encodeRecord, List.append_assoc, List.append_assoc]
  exact List.take_left' (length_packHeader _ _ _)

theorem encodeRec_append_drop (r : LogRecord) (tail : List Nat) :
    (encodeRec r ++ tail).drop 16 = r.key ++ (r.val ++ tail) := by
  rw [encodeRec, encodeRecord, List.append_assoc, List.append_assoc]
  exact List.drop_left' (length_packHeader _ _ _)

/-- Replaying a log that starts with one complete, in-range record consumes
exactly that record and performs the corresponding index/counter update. -/
theorem loadLoop_cons (r : LogRecord) (tail : List Nat) (pos : Nat) (idx : Idx)
    (ds dels : Nat) (h : RecordOK r) :
    loadLoop (encodeRec r ++ tail) pos idx ds dels =
      loadLoop tail (pos + recSize r) (aset idx r.key (pos, recSize r, r.ts))
        (ds + recSize r) (dels + oldSize idx r.key) := by
  have hlen : (encodeRec r ++ tail).length = recSize r + tail.length := by
    simp [length_encodeRec]
  have hsz : 16 ≤ recSize r := by
    simp only [recSize]
    omega
  have hne : encodeRec r ++ tail ≠ [] := by
    apply List.ne_nil_of_length_pos
    omega
  have hlt : ¬(encodeRec r ++ tail).length < 16 := by omega
  obtain ⟨u1, u2, u3⟩ := unpack_pack r h
  rw [loadLoop, if_neg hne, if_neg hlt]
  simp only [encodeRec_append_take, encodeRec_append_drop, u1, u2, u3,
    List.take_left, List.drop_left]
  simp only [recSize, ← Nat.add_assoc]

theorem loadLoop_encodeAll (rs : List LogRecord) (h : ∀ r ∈ rs, RecordOK r)
    (pos : Nat) (idx : Idx) (ds dels : Nat) :
    loadLoop (encodeAll rs) pos idx ds dels =
      .ok (stProj (replayRecs rs ⟨pos, idx, ds, dels⟩)) := by
  induction rs generalizing pos idx ds dels with
  | nil => simp [encodeAll, loadLoop_nil, replayRecs, stProj]
  | cons r rs ih =>
    rw [encodeAll, loadLoop_cons r _ _ _ _ _ (h r (by simp)),
      ih (fun q hq => h q (by simp [hq]))]
    rfl

/-! ## Index dictionary lemmas -/

theorem alookup_aset (idx : Idx) (k k' : List Nat) (e : Entry) :
    alookup (aset idx k e) k' = if k = k' then some e else alookup idx k' := by
  induction idx with
  | nil =>
    by_cases h : k = k' <;> simp [aset, alookup, h]
  | cons p rest ih =>
    obtain ⟨k0, e0⟩ := p
    by_cases h1 : k0 = k
    · subst h1
      simp only [aset, if_pos rfl, alookup]
      by_cases h2 : k0 = k' <;> simp [h2]
    · simp only [aset, if_neg h1, alookup]
      by_cases h2 : k0 = k'
      · have hkk' : k ≠ k' := fun hh => h1 (h2.trans hh.symm)
        simp [h2, hkk']
      · rw [ih]
        simp [h2]

theorem alookup_mem {idx : Idx} {k : List Nat} {e : Entry}
    (h : alookup idx k = some e) : (k, e) ∈ idx := by
  induction idx with
  | nil => simp [alookup] at h
  | cons p rest ih =>
    obtain ⟨k0, e0⟩ := p
    by_cases h0 : k0 = k
    · subst h0
      simp [alookup] at h
      simp [h]
    · simp [alookup, h0] at h
      simp [ih h]

theorem alookup_isSome_iff (idx : Idx) (k : List Nat) :
    (alookup idx k).isSome ↔ k ∈ idx.map Prod.fst := by
  induction idx with
  | nil => simp [alookup]
  | cons p rest ih =>
    obtain ⟨k0, e0⟩ := p
    by_cases h0 : k0 = k
    · subst h0
      simp [alookup]
    · simp only [alookup, if_neg h0, List.map_cons, List.mem_cons]
      rw [ih]
      constructor
      · exact fun h => Or.inr h
      · rintro (h | h)
        · exact absurd h.symm h0
        · exact h

theorem alookup_eq_none_iff (idx : Idx) (k : List Nat) :
    alookup idx k = none ↔ k ∉ idx.map Prod.fst := by
  rw [← alookup_isSome_iff, Option.isSome_iff_ne_none]
  tauto

theorem aset_map_fst_of_mem {idx : Idx} {k : List Nat} (e : Entry)
    (h : k ∈ idx.map Prod.fst) :
    (aset idx k e).map Prod.fst = idx.map Prod.fst := by
  induction idx with
  | nil => simp at h
  | cons p rest ih =>
    obtain ⟨k0, e0⟩ := p
    by_cases h0 : k0 = k
    · simp [aset, h0]
    · have h' : k ∈ rest.map Prod.fst := by
        rw [List.map_cons] at h
        rcases List.mem_cons.mp h with h'' | h''
        · exact absurd h''.symm h0
        · exact h''
      simp [aset, h0, ih h']

theorem aset_map_fst_of_not_mem {idx : Idx} {k : List Nat} (e : Entry)
    (h : k ∉ idx.map Prod.fst) :
    (aset idx k e).map Prod.fst = idx.map Prod.fst ++ [k] := by
  induction idx with
  | nil => simp [aset]
  | cons p rest ih =>
    obtain ⟨k0, e0⟩ := p
    have h1 : ¬k0 = k := by
      intro hh
      exact h (by simp [hh])
    have h2 : k ∉ rest.map Prod.fst := by
      intro hh
      exact h (by simp [hh])
    simp [aset, h1, ih h2]

theorem aset_nodup {idx : Idx} {k : List Nat} (e : Entry)
    (h : (idx.map Prod.fst).Nodup) : ((aset idx k e).map Prod.fst).Nodup := by
  by_cases hm : k ∈ idx.map Prod.fst
  · rw [aset_map_fst_of_mem e hm]
    exact h
  · rw [aset_map_fst_of_not_mem e hm]
    simp [List.nodup_append, h, hm]

theorem aset_mem {idx : Idx} {k : List Nat} {e : Entry} {p : List Nat × Entry}
    (h : p ∈ aset idx k e) : p = (k, e) ∨ p ∈ idx := by
  induction idx with
  | nil => simpa [aset] using h
  | cons q rest ih =>
    obtain ⟨k0, e0⟩ := q
    by_cases h0 : k0 = k
    · simp [aset, h0] at h
      rcases h with h | h
      · exact Or.inl h
      · exact Or.inr (by simp [h])
    · simp [aset, h0] at h
      rcases h with h | h
      · exact Or.inr (by simp [h])
      · rcases ih h with h' | h'
        · exact Or.inl h'
        · exact Or.inr (by simp [h'])

/-! ## Replay state lemmas -/

theorem replayRecs_nil (st : RepSt) : replayRecs [] st = st := rfl

theorem replayRecs_cons (r : LogRecord) (rs : List LogRecord) (st : RepSt) :
    replayRecs (r :: rs) st = replayRecs rs (repStep st r) := rfl

theorem replayRecs_append (rs rs' : List LogRecord) (st : RepSt) :
    replayRecs (rs ++ rs') st = replayRecs rs' (replayRecs rs st) := by
  simp [replayRecs, List.foldl_append]

theorem encodeAll_append (rs rs' : List LogRecord) :
    encodeAll (rs ++ rs') = encodeAll rs ++ encodeAll rs' := by
  induction rs with
  | nil => simp [encodeAll]
  | cons r rs ih => simp [encodeAll, ih]

theorem totalSize_append (rs rs' : List LogRecord) :
    totalSize (rs ++ rs') = totalSize rs + totalSize rs' := by
  induction rs with
  | nil => simp [totalSize]
  | cons r rs ih =>
    simp [totalSize, ih]
    omega

theorem length_encodeAll (rs : List LogRecord) :
    (encodeAll rs).length = totalSize rs := by
  induction rs with
  | nil => simp [encodeAll, totalSize]
  | cons r rs ih => simp [encodeAll, totalSize, ih, length_encodeRec]

theorem replay_pos (rs : List LogRecord) (st : RepSt) :
    (replayRecs rs st).pos = st.pos + totalSize rs := by
  induction rs generalizing st with
  | nil => simp [replayRecs_nil, totalSize]
  | cons r rs ih =>
    rw [replayRecs_cons, ih]
    simp [repStep, totalSize]
    omega

theorem replay_ds (rs : List LogRecord) (st : RepSt) :
    (replayRecs rs st).ds = st.ds + totalSize rs := by
  induction rs generalizing st with
  | nil => simp [replayRecs_nil, totalSize]
  | cons r rs ih =>
    rw [replayRecs_cons, ih]
    simp [repStep, totalSize]
    omega

/-- The recovered index's entry for a key is the entry of the last replayed
record with that key, falling back to the starting index. -/
theorem alookup_replay (rs : List LogRecord) (st : RepSt) (k : List Nat) :
    alookup (replayRecs rs st).idx k =
      match lastEntryFrom st.pos k rs with
      | some e => some e
      | none => alookup st.idx k := by
  induction rs generalizing st with
  | nil => simp [replayRecs_nil, lastEntryFrom]
  | cons r rs ih =>
    rw [replayRecs_cons, ih]
    simp only [repStep, lastEntryFrom]
    cases hlast : lastEntryFrom (st.pos + recSize r) k rs with
    | some e => rfl
    | none =>
      rw [alookup_aset]
      by_cases hk : r.key = k <;> simp [hk]

/-! ## Slices of the file -/

theorem slice_full_le {file : List Nat} {n m : Nat} {B : List Nat}
    (h : (file.drop n).take m = B) (hm : B.length = m) (hpos : 0 < m) :
    n + m ≤ file.length := by
  have h1 : ((file.drop n).take m).length = min m (file.length - n) := by
    simp [List.length_take, List.length_drop]
  rw [h, hm] at h1
  by_cases hc : m ≤ file.length - n
  · omega
  · rw [Nat.min_def, if_neg hc] at h1
    omega

theorem slice_append {file ext : List Nat} {n m : Nat} (h : n + m ≤ file.length) :
    ((file ++ ext).drop n).take m = (file.drop n).take m := by
  rw [List.drop_append_of_le_length (by omega), List.take_append_of_le_length]
  simp only [List.length_drop]
  omega

theorem encodeRecord_drop_16 (ts : Nat) (k v : List Nat) :
    (encodeRecord ts k v).drop 16 = k ++ v := by
  rw [encodeRecord, List.append_assoc]
  exact List.drop_left' (length_packHeader _ _ _)

theorem encodeRecord_drop_key (ts : Nat) (k v : List Nat) :
    (encodeRecord ts k v).drop (16 + k.length) = v := by
  have h : (encodeRecord ts k v).drop (16 + k.length) =
      ((encodeRecord ts k v).drop 16).drop k.length := by
    rw [List.drop_drop]
  rw [h, encodeRecord_drop_16]
  exact List.drop_left k v

/-- Reading back the value of an entry whose slice is a complete record. -/
theorem entryValue_eq {file k v : List Nat} {e : Entry}
    (hsz : e.2.1 = 16 + k.length + v.length)
    (hslice : (file.drop e.1).take e.2.1 = encodeRecord e.2.2 k v) :
    entryValue file k e = v := by
  have hlen : (encodeRecord e.2.2 k v).length = e.2.1 := by
    rw [length_encodeRecord, hsz]
  have hX : file.drop e.1 = encodeRecord e.2.2 k v ++ (file.drop e.1).drop e.2.1 := by
    conv_lhs => rw [← List.take_append_drop e.2.1 (file.drop e.1)]
    rw [hslice]
  have h1 : file.drop (e.1 + 16 + k.length) = (file.drop e.1).drop (16 + k.length) := by
    rw [List.drop_drop, Nat.add_assoc]
  simp only [entryValue, h1]
  rw [hX]
  rw [List.drop_append_of_le_length (by rw [length_encodeRecord]; omega)]
  rw [encodeRecord_drop_key]
  have h2 : e.2.1 - (16 + k.length) = v.length := by omega
  rw [h2, List.take_left]

/-! ## Entry validity through replay -/

theorem replay_entries (rs : List LogRecord) (st : RepSt) (file : List Nat)
    (hsuffix : file.drop st.pos = encodeAll rs)
    (hok : ∀ r ∈ rs, RecordOK r)
    (hst : ∀ k e, alookup st.idx k = some e → EntryPoints file k e) :
    ∀ k e, alookup (replayRecs rs st).idx k = some e → EntryPoints file k e := by
  induction rs generalizing st with
  | nil =>
    intro k e h
    exact hst k e h
  | cons r rs ih =>
    intro k e h
    rw [replayRecs_cons] at h
    refine ih (repStep st r) ?_ (fun q hq => hok q (by simp [hq])) ?_ k e h
    · show file.drop (st.pos + recSize r) = encodeAll rs
      rw [← List.drop_drop, hsuffix, encodeAll]
      exact List.drop_left' (length_encodeRec r)
    · intro k' e' h'
      simp only [repStep] at h'
      rw [alookup_aset] at h'
      by_cases hk : r.key = k'
      · rw [if_pos hk] at h'
        have he' : e' = (st.pos, recSize r, r.ts) := by
          exact (Option.some.injEq _ _ ▸ h').symm
        subst he'
        refine ⟨r.val, ?_, ?_, ?_⟩
        · have := hok r (by simp)
          rw [← hk]
          exact this
        · simp only [recSize]
          rw [← hk]
        · show (file.drop st.pos).take (recSize r) = encodeRecord r.ts k' r.val
          rw [hsuffix, encodeAll, List.take_left' (length_encodeRec r), encodeRec, hk]
      · rw [if_neg hk] at h'
        exact hst k' e' h'

theorem replay_nodup (rs : List LogRecord) (st : RepSt)
    (h : (st.idx.map Prod.fst).Nodup) :
    ((replayRecs rs st).idx.map Prod.fst).Nodup := by
  induction rs generalizing st with
  | nil => exact h
  | cons r rs ih =>
    rw [replayRecs_cons]
    exact ih _ (aset_nodup _ h)

/-! ## Consequences of the coupling invariant -/

theorem SInv_load {s : KeyValueStore} {rs : List LogRecord} (h : SInv s rs) :
    loadLoop s.file 0 [] 0 0 = .ok (s.keys, s.data_size, s.deleted_size) := by
  obtain ⟨hok, hfile, _, hreplay⟩ := h
  rw [hfile, loadLoop_encodeAll rs hok 0 [] 0 0, hreplay]
  rfl

theorem SInv_data {s : KeyValueStore} {rs : List LogRecord} (h : SInv s rs) :
    s.data_size = s.file.length := by
  obtain ⟨hok, hfile, _, hreplay⟩ := h
  have h1 := congrArg RepSt.ds hreplay
  rw [replay_ds] at h1
  simp only [RepSt.ds] at h1
  rw [hfile, length_encodeAll]
  omega

theorem SInv_total {s : KeyValueStore} {rs : List LogRecord} (h : SInv s rs) :
    s.data_size = totalSize rs := by
  rw [SInv_data h, h.2.1, length_encodeAll]

theorem SInv_keys_nodup {s : KeyValueStore} {rs : List LogRecord} (h : SInv s rs) :
    NodupKeys s := by
  obtain ⟨hok, hfile, _, hreplay⟩ := h
  have hn := replay_nodup rs ⟨0, [], 0, 0⟩ (by simp)
  rw [hreplay] at hn
  exact hn

theorem SInv_Inv1 {s : KeyValueStore} {rs : List LogRecord} (h : SInv s rs) :
    Inv1 s := by
  obtain ⟨hok, hfile, hex, hreplay⟩ := h
  have hidx : (replayRecs rs ⟨0, [], 0, 0⟩).idx = s.keys := by rw [hreplay]
  intro k e he
  refine replay_entries rs ⟨0, [], 0, 0⟩ s.file (by simp [hfile]) hok ?_ k e ?_
  · intro k' e' h'
    simp [alookup] at h'
  · rw [hidx]
    exact he

theorem SInv_fresh : SInv freshStore [] :=
  ⟨by simp, rfl, fun _ => rfl, rfl⟩

/-! ## The operations, decomposed -/

theorem put_eq (s : KeyValueStore) (now : Nat) (k v : List Nat) :
    s.put now k v = appendRecord (if compactionDue s then compactStore s else s) now k v := by
  by_cases h : compactionDue s <;>
    simp [KeyValueStore.put, appendRecord, h, encodeRecord, List.append_assoc]

theorem delete_eq (s : KeyValueStore) (now : Nat) (k : List Nat)
    (h : (alookup s.keys k).isSome) :
    s.delete now k =
      (fun s' => (if compactionDue s' then compactStore s' else s', true))
        (appendRecord s now k DELETED) := by
  obtain ⟨e, he⟩ := Option.isSome_iff_exists.mp h
  simp [KeyValueStore.delete, he, appendRecord, encodeRecord, List.append_assoc]

theorem delete_eq_none (s : KeyValueStore) (now : Nat) (k : List Nat)
    (h : alookup s.keys k = none) :
    s.delete now k = (s, false) := by
  simp [KeyValueStore.delete, h]

theorem batch_put_eq (s : KeyValueStore) (now : Nat)
    (items : List (List Nat × List Nat)) :
    s.batch_put now items =
      batchLoop (if compactionDue s then compactStore s else s) now items := rfl

theorem SInv_appendRecord {s : KeyValueStore} {rs : List LogRecord}
    (h : SInv s rs) (r : LogRecord) (hr : RecordOK r) :
    SInv (appendRecord s r.ts r.key r.val) (rs ++ [r]) := by
  obtain ⟨hok, hfile, hex, hreplay⟩ := h
  have hlen : s.file.length = totalSize rs := by rw [hfile, length_encodeAll]
  refine ⟨?_, ?_, ?_, ?_⟩
  · intro q hq
    rcases List.mem_append.mp hq with hq | hq
    · exact hok q hq
    · simp at hq
      rw [hq]
      exact hr
  · simp only [appendRecord, encodeAll_append, hfile, encodeAll]
    simp [encodeRec]
  · intro hfalse
    simp [appendRecord] at hfalse
  · rw [replayRecs_append, hreplay]
    simp only [replayRecs, List.foldl_cons, List.foldl_nil, repStep]
    simp only [appendRecord, totalSize_append, totalSize, hlen, recSize,
      Nat.add_zero, RepSt.mk.injEq]

/-! ## Compaction -/

theorem alookup_of_mem_nodup {idx : Idx} {k : List Nat} {e : Entry}
    (hnd : (idx.map Prod.fst).Nodup) (hm : (k, e) ∈ idx) :
    alookup idx k = some e := by
  induction idx with
  | nil => simp at hm
  | cons p rest ih =>
    obtain ⟨k0, e0⟩ := p
    rw [List.map_cons, List.nodup_cons] at hnd
    rcases List.mem_cons.mp hm with h | h
    · injection h with h1 h2
      simp [alookup, h1.symm, h2]
    · have hk0 : k0 ≠ k := by
        intro hh
        subst hh
        exact hnd.1 (List.mem_map.mpr ⟨(k0, e), h, rfl⟩)
      simp only [alookup, if_neg hk0]
      exact ih hnd.2 h

theorem oldSize_eq_zero {idx : Idx} {k : List Nat} (h : k ∉ idx.map Prod.fst) :
    oldSize idx k = 0 := by
  simp [oldSize, (alookup_eq_none_iff idx k).mpr h]

theorem aset_append_of_not_mem {idx : Idx} {k : List Nat} (e : Entry)
    (h : k ∉ idx.map Prod.fst) : aset idx k e = idx ++ [(k, e)] := by
  induction idx with
  | nil => simp [aset]
  | cons p rest ih =>
    obtain ⟨k0, e0⟩ := p
    have h1 : k0 ≠ k := fun hh => h (by simp [hh])
    have h2 : k ∉ rest.map Prod.fst := fun hh => h (by simp [hh])
    simp [aset, h1, ih h2]

theorem compactLoop_eq (old : List Nat) (idx : Idx) (acc : List Nat)
    (h : ∀ p ∈ idx, EntryPoints old p.1 p.2) :
    compactLoop old idx acc =
      (acc ++ encodeAll (liveRecs old idx), buildIdx acc.length (liveRecs old idx)) := by
  induction idx generalizing acc with
  | nil => simp [compactLoop, liveRecs, encodeAll, buildIdx]
  | cons p rest ih =>
    obtain ⟨k0, pos0, sz0, ts0⟩ := p
    obtain ⟨v, hvok, hvsz, hvslice⟩ := h (k0, pos0, sz0, ts0) (by simp)
    have hval : entryValue old k0 (pos0, sz0, ts0) = v := entryValue_eq hvsz hvslice
    have hrec : entryRec old (k0, (pos0, sz0, ts0)) = ⟨ts0, k0, v⟩ := by
      simp [entryRec, hval]
    have hIH := ih (acc ++ (old.drop pos0).take sz0) (fun q hq => h q (by simp [hq]))
    have hsz' : recSize (⟨ts0, k0, v⟩ : LogRecord) = sz0 := by
      simp only [recSize] at hvsz ⊢
      omega
    rw [compactLoop, hIH]
    simp only [hvslice, liveRecs, List.map_cons, hrec, encodeAll, encodeRec, buildIdx,
      hsz', List.append_assoc, List.length_append, length_encodeRecord, ← hvsz]

theorem buildIdx_points (rs : List LogRecord) (pre : List Nat)
    (hok : ∀ r ∈ rs, RecordOK r) :
    ∀ p ∈ buildIdx pre.length rs, EntryPoints (pre ++ encodeAll rs) p.1 p.2 := by
  induction rs generalizing pre with
  | nil => simp [buildIdx]
  | cons r rs ih =>
    intro p hp
    simp only [buildIdx, List.mem_cons] at hp
    rcases hp with hp | hp
    · subst hp
      refine ⟨r.val, hok r (by simp), by simp [recSize], ?_⟩
      show ((pre ++ encodeAll (r :: rs)).drop pre.length).take (recSize r) =
        encodeRecord r.ts r.key r.val
      rw [List.drop_left, encodeAll, List.take_append_of_le_length (by rw [length_encodeRec])]
      rw [← length_encodeRec r, List.take_length]
      rfl
    · have hih := ih (pre ++ encodeRec r) (fun q hq => hok q (by simp [hq]))
      rw [List.length_append, length_encodeRec] at hih
      have h2 := hih p hp
      rw [List.append_assoc] at h2
      rw [encodeAll]
      exact h2

theorem liveRecs_keys (file : List Nat) (idx : Idx) :
    (liveRecs file idx).map LogRecord.key = idx.map Prod.fst := by
  simp only [liveRecs, List.map_map]
  rfl

theorem replay_distinct (rs : List LogRecord) (pos0 : Nat) (idx0 : Idx) (d g : Nat)
    (hdisj : ∀ r ∈ rs, r.key ∉ idx0.map Prod.fst)
    (hnd : (rs.map LogRecord.key).Nodup) :
    replayRecs rs ⟨pos0, idx0, d, g⟩ =
      ⟨pos0 + totalSize rs, idx0 ++ buildIdx pos0 rs, d + totalSize rs, g⟩ := by
  induction rs generalizing pos0 idx0 d g with
  | nil => simp [replayRecs_nil, totalSize, buildIdx]
  | cons r rs ih =>
    rw [replayRecs_cons]
    simp only [repStep]
    rw [aset_append_of_not_mem _ (hdisj r (by simp)),
      oldSize_eq_zero (hdisj r (by simp))]
    rw [List.map_cons, List.nodup_cons] at hnd
    rw [ih (pos0 + recSize r) _ _ _ ?_ hnd.2]
    · simp only [totalSize, buildIdx, RepSt.mk.injEq, List.append_assoc,
        List.singleton_append, Nat.add_zero, and_true, true_and]
      omega
    · intro q hq
      rw [List.map_append]
      intro hmem
      rcases List.mem_append.mp hmem with hm | hm
      · exact hdisj q (by simp [hq]) hm
      · simp at hm
        exact hnd.1 (hm ▸ List.mem_map_of_mem LogRecord.key hq)

theorem SInv_compact {s : KeyValueStore} {rs : List LogRecord} (h : SInv s rs) :
    SInv (compactStore s) (liveRecs s.file s.keys) := by
  have hnd : (s.keys.map Prod.fst).Nodup := SInv_keys_nodup h
  have hinv1 : Inv1 s := SInv_Inv1 h
  have hpts : ∀ p ∈ s.keys, EntryPoints s.file p.1 p.2 := by
    intro p hp
    obtain ⟨k0, e0⟩ := p
    exact hinv1 k0 e0 (alookup_of_mem_nodup hnd hp)
  have hcl := compactLoop_eq s.file s.keys [] hpts
  have hok : ∀ r ∈ liveRecs s.file s.keys, RecordOK r := by
    intro r hr
    simp only [liveRecs, List.mem_map] at hr
    obtain ⟨p, hp, hpr⟩ := hr
    obtain ⟨k0, e0⟩ := p
    obtain ⟨v, hvok, hvsz, hvslice⟩ := hpts _ hp
    have hval : entryValue s.file k0 e0 = v := entryValue_eq hvsz hvslice
    rw [← hpr]
    simp only [entryRec, hval]
    exact hvok
  have hndlive : ((liveRecs s.file s.keys).map LogRecord.key).Nodup := by
    rw [liveRecs_keys]
    exact hnd
  refine ⟨hok, ?_, ?_, ?_⟩
  · simp [compactStore, hcl]
  · intro hfalse
    simp [compactStore, hcl] at hfalse
  · rw [replay_distinct _ 0 [] 0 0 (by simp) hndlive]
    simp [compactStore, hcl, length_encodeAll]

/-! ## Last-writer-wins views -/

theorem lastEntryFrom_spec (rs : List LogRecord) (pre : List Nat) (k : List Nat)
    (hok : ∀ r ∈ rs, RecordOK r) :
    (lastEntryFrom pre.length k rs = none → lastRecVal rs k = none) ∧
    (∀ e, lastEntryFrom pre.length k rs = some e →
      ∃ v, lastRecVal rs k = some v ∧ RecordOK ⟨e.2.2, k, v⟩ ∧
        e.2.1 = 16 + k.length + v.length ∧
        ((pre ++ encodeAll rs).drop e.1).take e.2.1 = encodeRecord e.2.2 k v) := by
  induction rs generalizing pre with
  | nil =>
    refine ⟨fun _ => rfl, fun e he => ?_⟩
    simp [lastEntryFrom] at he
  | cons r rs ih =>
    have hih := ih (pre ++ encodeRec r) (fun q hq => hok q (by simp [hq]))
    rw [List.length_append, length_encodeRec] at hih
    have hassoc : (pre ++ encodeRec r) ++ encodeAll rs = pre ++ encodeAll (r :: rs) := by
      rw [encodeAll, List.append_assoc]
    constructor
    · intro hnone
      rw [lastEntryFrom] at hnone
      cases hinner : lastEntryFrom (pre.length + recSize r) k rs with
      | some e => rw [hinner] at hnone; simp at hnone
      | none =>
        rw [hinner] at hnone
        by_cases hk : r.key = k
        · rw [if_pos hk] at hnone
          simp at hnone
        · rw [lastRecVal, hih.1 hinner]
          simp [hk]
    · intro e he
      rw [lastEntryFrom] at he
      cases hinner : lastEntryFrom (pre.length + recSize r) k rs with
      | some e' =>
        rw [hinner] at he
        have he' : e' = e := by
          injection he
        subst he'
        obtain ⟨v, hv1, hv2, hv3, hv4⟩ := hih.2 e' hinner
        rw [hassoc] at hv4
        exact ⟨v, by rw [lastRecVal, hv1], hv2, hv3, hv4⟩
      | none =>
        rw [hinner] at he
        by_cases hk : r.key = k
        · rw [if_pos hk] at he
          have he2 : e = (pre.length, recSize r, r.ts) := by
            injection he with h'
            exact h'.symm
          subst he2
          refine ⟨r.val, ?_, ?_, ?_, ?_⟩
          · rw [lastRecVal, hih.1 hinner]
            simp [hk]
          · rw [← hk]
            exact hok r (by simp)
          · simp only [recSize]
            rw [← hk]
          · show ((pre ++ encodeAll (r :: rs)).drop pre.length).take (recSize r) =
              encodeRecord r.ts k r.val
            rw [List.drop_left, encodeAll, List.take_left' (length_encodeRec r), encodeRec, hk]
        · rw [if_neg hk] at he
          simp at he

theorem view_SInv {s : KeyValueStore} {rs : List LogRecord} (h : SInv s rs)
    (k : List Nat) : keyView s k = lastRecVal rs k := by
  obtain ⟨hok, hfile, hex, hreplay⟩ := h
  have hlook := alookup_replay rs ⟨0, [], 0, 0⟩ k
  rw [hreplay] at hlook
  have hspec := lastEntryFrom_spec rs [] k hok
  simp only [List.length_nil, List.nil_append] at hspec
  cases hle : lastEntryFrom 0 k rs with
  | none =>
    rw [hle] at hlook
    simp only [alookup] at hlook
    rw [keyView, hlook, hspec.1 hle]
    rfl
  | some e =>
    rw [hle] at hlook
    obtain ⟨v, hv1, hv2, hv3, hv4⟩ := hspec.2 e hle
    rw [keyView, hlook, hv1]
    rw [← hfile] at hv4
    simp [entryValue_eq hv3 hv4]

theorem lastRecVal_append_one (rs : List LogRecord) (r : LogRecord) (k : List Nat) :
    lastRecVal (rs ++ [r]) k = if r.key = k then some r.val else lastRecVal rs k := by
  induction rs with
  | nil =>
    simp only [List.nil_append, lastRecVal]
  | cons q rs ih =>
    rw [List.cons_append, lastRecVal, ih, lastRecVal]
    by_cases hk : r.key = k <;> simp [hk]

theorem lastRecVal_none_of_not_mem {rs : List LogRecord} {k : List Nat}
    (h : k ∉ rs.map LogRecord.key) : lastRecVal rs k = none := by
  induction rs with
  | nil => rfl
  | cons r rs ih =>
    have h1 : r.key ≠ k := fun hh => h (by simp [hh])
    have h2 : k ∉ rs.map LogRecord.key := fun hh => h (by simp [hh])
    rw [lastRecVal, ih h2]
    simp [h1]

theorem lastRecVal_liveRecs {file : List Nat} {idx : Idx}
    (hnd : (idx.map Prod.fst).Nodup) (k : List Nat) :
    lastRecVal (liveRecs file idx) k = (alookup idx k).map (entryValue file k) := by
  induction idx with
  | nil => simp [liveRecs, lastRecVal, alookup]
  | cons p rest ih =>
    obtain ⟨k0, e0⟩ := p
    rw [List.map_cons, List.nodup_cons] at hnd
    have hcons : liveRecs file ((k0, e0) :: rest) =
        entryRec file (k0, e0) :: liveRecs file rest := rfl
    rw [hcons, lastRecVal, ih hnd.2]
    by_cases hk : k0 = k
    · subst hk
      have hnone : alookup rest k0 = none :=
        (alookup_eq_none_iff rest k0).mpr hnd.1
      rw [hnone]
      simp [alookup, entryRec]
    · simp only [alookup, if_neg hk]
      cases halt : alookup rest k with
      | none => simp [entryRec, hk]
      | some e => simp [entryRec, hk]

/-! ## Operations preserve the coupling invariant -/

theorem SInv_put {s : KeyValueStore} {rs : List LogRecord} (h : SInv s rs)
    {now : Nat} {k v : List Nat}
    (h1 : now < 2 ^ 64) (h2 : k.length < 2 ^ 32) (h3 : v.length < 2 ^ 32) :
    SInv (s.put now k v)
      ((if compactionDue s then liveRecs s.file s.keys else rs) ++ [⟨now, k, v⟩]) := by
  rw [put_eq]
  by_cases hc : compactionDue s
  · rw [if_pos hc, if_pos hc]
    exact SInv_appendRecord (SInv_compact h) ⟨now, k, v⟩ ⟨h1, h2, h3⟩
  · rw [if_neg hc, if_neg hc]
    exact SInv_appendRecord h ⟨now, k, v⟩ ⟨h1, h2, h3⟩

theorem lastRecVal_compact_arg {s : KeyValueStore} {rs : List LogRecord}
    (h : SInv s rs) (k : List Nat) :
    lastRecVal (liveRecs s.file s.keys) k = lastRecVal rs k := by
  rw [lastRecVal_liveRecs (SInv_keys_nodup h) k]
  exact view_SInv h k

theorem SInv_put_view {s : KeyValueStore} {rs : List LogRecord} (h : SInv s rs)
    {now : Nat} {k v : List Nat}
    (h1 : now < 2 ^ 64) (h2 : k.length < 2 ^ 32) (h3 : v.length < 2 ^ 32) :
    ∃ rs', SInv (s.put now k v) rs' ∧
      ∀ k', lastRecVal rs' k' = if k = k' then some v else lastRecVal rs k' := by
  refine ⟨_, SInv_put h h1 h2 h3, ?_⟩
  intro k'
  rw [lastRecVal_append_one]
  by_cases hc : compactionDue s
  · rw [if_pos hc]
    by_cases hk : k = k' <;> simp [hk, lastRecVal_compact_arg h]
  · rw [if_neg hc]

theorem SInv_delete_some {s : KeyValueStore} {rs : List LogRecord} (h : SInv s rs)
    {now : Nat} {k : List Nat}
    (hk : (alookup s.keys k).isSome) (h1 : now < 2 ^ 64) (h2 : k.length < 2 ^ 32) :
    ∃ rs', SInv ((s.delete now k).1) rs' ∧ (s.delete now k).2 = true ∧
      ∀ k', lastRecVal rs' k' = if k = k' then some DELETED else lastRecVal rs k' := by
  have hd := delete_eq s now k hk
  have hok : RecordOK ⟨now, k, DELETED⟩ := by
    refine ⟨h1, h2, ?_⟩
    norm_num [DELETED]
  have hmid : SInv (appendRecord s now k DELETED) (rs ++ [⟨now, k, DELETED⟩]) :=
    SInv_appendRecord h ⟨now, k, DELETED⟩ hok
  set mid := appendRecord s now k DELETED with hmidDef
  by_cases hc : compactionDue mid
  · refine ⟨liveRecs mid.file mid.keys, ?_, ?_, ?_⟩
    · rw [hd]
      simp only [hc, if_true]
      exact SInv_compact hmid
    · rw [hd]
    · intro k'
      rw [lastRecVal_compact_arg hmid, lastRecVal_append_one]
  · refine ⟨rs ++ [⟨now, k, DELETED⟩], ?_, ?_, ?_⟩
    · rw [hd]
      simp only [hc, if_false]
      exact hmid
    · rw [hd]
    · intro k'
      rw [lastRecVal_append_one]

theorem SInv_batchLoop {now : Nat} (items : List (List Nat × List Nat)) :
    ∀ {s : KeyValueStore} {rs : List LogRecord}, SInv s rs → now < 2 ^ 64 →
    (∀ p ∈ items, p.1.length < 2 ^ 32 ∧ p.2.length < 2 ^ 32) →
    ∃ rs', SInv (batchLoop s now items) rs' := by
  induction items with
  | nil => exact fun h _ _ => ⟨_, h⟩
  | cons p items ih =>
    intro s rs h h1 hb
    obtain ⟨k, v⟩ := p
    obtain ⟨hk, hv⟩ := hb (k, v) (by simp)
    have hstep : SInv (appendRecord s now k v) (rs ++ [⟨now, k, v⟩]) :=
      SInv_appendRecord h ⟨now, k, v⟩ ⟨h1, hk, hv⟩
    exact ih hstep h1 (fun q hq => hb q (by simp [hq]))

theorem SInv_applyOp {s : KeyValueStore} {rs : List LogRecord} (h : SInv s rs)
    {op : StoreOp} (hop : OpOK op) :
    ∃ s' rs', applyOp s op = .ok s' ∧ SInv s' rs' := by
  cases op with
  | put now k v =>
    obtain ⟨h1, h2, h3⟩ := hop
    exact ⟨_, _, rfl, SInv_put h h1 h2 h3⟩
  | del now k =>
    obtain ⟨h1, h2⟩ := hop
    cases hlk : alookup s.keys k with
    | none =>
      refine ⟨s, rs, ?_, h⟩
      simp [applyOp, delete_eq_none s now k hlk]
    | some e =>
      obtain ⟨rs', hinv, _, _⟩ := SInv_delete_some h (by simp [hlk]) h1 h2
      exact ⟨_, rs', rfl, hinv⟩
  | batch now items =>
    obtain ⟨h1, hb⟩ := hop
    rw [show applyOp s (.batch now items) = .ok (s.batch_put now items) from rfl]
    rw [batch_put_eq]
    by_cases hc : compactionDue s
    · rw [if_pos hc]
      obtain ⟨rs', hinv⟩ := SInv_batchLoop items (SInv_compact h) h1 hb
      exact ⟨_, rs', rfl, hinv⟩
    · rw [if_neg hc]
      obtain ⟨rs', hinv⟩ := SInv_batchLoop items h h1 hb
      exact ⟨_, rs', rfl, hinv⟩
  | reopen =>
    simp only [applyOp]
    cases hex : s.fileExists with
    | true =>
      rw [if_pos rfl]
      rw [initStore]
      rw [SInv_load h]
      refine ⟨_, rs, rfl, ?_⟩
      obtain ⟨hok, hfile, _, hreplay⟩ := h
      exact ⟨hok, hfile, by simp, hreplay⟩
    | false =>
      rw [if_neg (by simp)]
      exact ⟨_, [], rfl, SInv_fresh⟩

theorem SInv_applyOps (ops : List StoreOp) :
    ∀ {s : KeyValueStore} {rs : List LogRecord}, SInv s rs →
    (∀ op ∈ ops, OpOK op) →
    ∃ s' rs', applyOps s ops = .ok s' ∧ SInv s' rs' := by
  induction ops with
  | nil => exact fun h _ => ⟨_, _, rfl, h⟩
  | cons op ops ih =>
    intro s rs h hok
    obtain ⟨s1, rs1, hstep, hinv⟩ := SInv_applyOp h (hok op (by simp))
    obtain ⟨s', rs', happ, hinv'⟩ := ih hinv (fun q hq => hok q (by simp [hq]))
    exact ⟨s', rs', by simp [applyOps, hstep, happ], hinv'⟩

/-! ## Reading back an appended record -/

theorem encodeRecord_take_16 (ts : Nat) (k v : List Nat) :
    (encodeRecord ts k v).take 16 = packHeader ts k.length v.length := by
  rw [encodeRecord, List.append_assoc]
  exact List.take_left' (length_packHeader _ _ _)

/-- `read` right after an append of `(k, v)` returns `v`, unless `v` is the
tombstone sentinel. -/
theorem read_append_self (s : KeyValueStore) (now : Nat) (k v : List Nat)
    (h2 : k.length < 2 ^ 32) (h3 : v.length < 2 ^ 32) :
    (appendRecord s now k v).read k = .ok (if v = DELETED then none else some v) := by
  have hu2 : fromBe (((packHeader now k.length v.length).drop 8).take 4) = k.length := by
    rw [packHeader_mid, fromBe_beBytes_of_lt (by norm_num at h2 ⊢; omega)]
  have hu3 : fromBe (((packHeader now k.length v.length).drop 12).take 4) = v.length := by
    rw [packHeader_drop_12, fromBe_beBytes_of_lt (by norm_num at h3 ⊢; omega)]
  have hdrop : (s.file ++ encodeRecord now k v).drop s.file.length =
      encodeRecord now k v := List.drop_left _ _
  have hheader : ((s.file ++ encodeRecord now k v).drop s.file.length).take 16 =
      packHeader now k.length v.length := by
    rw [hdrop, encodeRecord_take_16]
  have hvalue : ((s.file ++ encodeRecord now k v).drop (s.file.length + 16 + k.length)).take
      v.length = v := by
    have hd : (s.file ++ encodeRecord now k v).drop (s.file.length + 16 + k.length) =
        ((s.file ++ encodeRecord now k v).drop s.file.length).drop (16 + k.length) := by
      rw [List.drop_drop, Nat.add_assoc]
    rw [hd, hdrop, encodeRecord_drop_key, List.take_length]
  have hlk : alookup (aset s.keys k (s.file.length, 16 + k.length + v.length, now)) k =
      some (s.file.length, 16 + k.length + v.length, now) := by
    rw [alookup_aset, if_pos rfl]
  simp only [appendRecord, KeyValueStore.read, hlk]
  rw [hheader, hu2, hu3, hvalue]
  rw [if_neg (by rw [length_packHeader]; omega)]
  by_cases hd : v = DELETED <;> simp [hd]

/-! ## Claim C1 -/

/-- C1: the claim says recovery tolerates a torn tail — in particular a log
of complete records followed by 7 trailing garbage bytes replays without
error.  On the code, `_load_from_disk` reads the 7-byte partial header and
feeds it to `struct.unpack`, which raises `struct.error`: startup fails.
This theorem evaluates recovery on one complete record for key `k` followed
by 7 garbage bytes and shows it errors instead of yielding the one key. -/
theorem c1_torn_tail_replay_errors :
    initStore (some (encodeRecord 0 (ascii "k") (ascii "v") ++ [1, 2, 3, 4, 5, 6, 7])) =
      .error () := by
  have hload : loadLoop (encodeRecord 0 (ascii "k") (ascii "v") ++ [1, 2, 3, 4, 5, 6, 7])
      0 [] 0 0 = .error () := by
    simp [loadLoop, encodeRecord, packHeader, beBytes, fromBe, fromBeAux, ascii,
      aset, oldSize, alookup]
  rw [initStore, hload]

/-! ## Claim C2 -/

/-- C2: the claim says every accepted request line — including a successful
BATCHPUT — is answered with a single `OK`/`ERROR` line ending in a newline.
On the code, the `BATCHPUT` branch of the handler is `pass`: `response`
stays the empty string and `sendall` transmits no bytes at all, so a
BATCHPUT request gets no `OK` line (and the engine is never called).  This
theorem evaluates the handler on the request `BATCHPUT 2` against a fresh
store. -/
theorem c2_batchput_empty_response :
    handle freshStore 0 (ascii "BATCHPUT 2") = ([], freshStore) := by decide

/-! ## Claim C4 -/

/-- C4 (counterexample): the claim quantifies over every value `v`, but
storing the literal string `DELETED` makes the subsequent read report the
key as absent: `read` cannot distinguish it from the tombstone sentinel. -/
theorem c4_counterexample :
    (freshStore.put 0 (ascii "k") (ascii "DELETED")).read (ascii "k") = .ok none := rfl

/-- C4 (amended): read-your-writes holds for every value other than the
seven-byte tombstone sentinel `DELETED` (and for keys/values whose lengths
fit the 4-byte header fields, as any value accepted by `struct.pack` does):
after `put k v` with no later write of `k`, `read k` returns `v`. -/
theorem c4_read_your_writes (s : KeyValueStore) (now : Nat) (k v : List Nat)
    (h2 : k.length < 2 ^ 32) (h3 : v.length < 2 ^ 32) (hv : v ≠ DELETED) :
    (s.put now k v).read k = .ok (some v) := by
  rw [put_eq, read_append_self _ now k v h2 h3, if_neg hv]

/-- C4 (witness): the amended theorem applied to a concrete put. -/
theorem c4_witness :
    (ascii "a").length < 2 ^ 32 ∧ (ascii "x").length < 2 ^ 32 ∧ ascii "x" ≠ DELETED ∧
    (freshStore.put 5 (ascii "a") (ascii "x")).read (ascii "a") = .ok (some (ascii "x")) :=
  ⟨by decide, by decide, by decide,
    c4_read_your_writes freshStore 5 (ascii "a") (ascii "x") (by decide) (by decide)
      (by decide)⟩

/-! ## Claim C6 -/

/-- C6 (counterexample): the claim places a compaction check before the
tombstone append in `delete` and before every item of `batch_put`.  On the
code, `delete` checks only after its append, and `batch_put` checks once
before the whole batch; against the spec-worded variants (`deleteSpecC6`,
`batchPutSpecC6`) the resulting data files differ on concrete stores whose
garbage ratio crosses the threshold at the relevant moment. -/
theorem c6_counterexample :
    ((freshStore.put 0 (ascii "k") (ascii "aa")).put 0 (ascii "k") (ascii "b")).delete 0
        (ascii "k") ≠
      deleteSpecC6 ((freshStore.put 0 (ascii "k") (ascii "aa")).put 0 (ascii "k") (ascii "b"))
        0 (ascii "k") ∧
    (freshStore.put 0 (ascii "kk") (ascii "vv")).batch_put 0
        [(ascii "kk", ascii "a"), (ascii "z", ascii "b")] ≠
      batchPutSpecC6 (freshStore.put 0 (ascii "kk") (ascii "vv")) 0
        [(ascii "kk", ascii "a"), (ascii "z", ascii "b")] := by
  decide

/-- C6 (amended): the compaction trigger (`data_size > 0` and
`deleted_size / data_size > 0.5`) is checked before the append in `put` and
once before the whole batch in `batch_put` (not before each item); `delete`
performs no pre-append check and considers compaction only after appending
the tombstone (returning `(s, False)` untouched when the key is absent). -/
theorem c6_trigger_placement :
    (∀ (s : KeyValueStore) (now : Nat) (k v : List Nat),
      s.put now k v = appendRecord (if compactionDue s then compactStore s else s) now k v) ∧
    (∀ (s : KeyValueStore) (now : Nat) (items : List (List Nat × List Nat)),
      s.batch_put now items =
        batchLoop (if compactionDue s then compactStore s else s) now items) ∧
    (∀ (s : KeyValueStore) (now : Nat) (k : List Nat), (alookup s.keys k).isSome →
      s.delete now k =
        (fun s' => (if compactionDue s' then compactStore s' else s', true))
          (appendRecord s now k DELETED)) ∧
    (∀ (s : KeyValueStore) (now : Nat) (k : List Nat), alookup s.keys k = none →
      s.delete now k = (s, false)) :=
  ⟨put_eq, batch_put_eq, delete_eq, delete_eq_none⟩

/-- C6 (witness): the amended delete decomposition applied to a concrete
store holding key `k`. -/
theorem c6_witness :
    (alookup (freshStore.put 0 (ascii "k") (ascii "v")).keys (ascii "k")).isSome = true ∧
    (freshStore.put 0 (ascii "k") (ascii "v")).delete 3 (ascii "k") =
      (fun s' => (if compactionDue s' then compactStore s' else s', true))
        (appendRecord (freshStore.put 0 (ascii "k") (ascii "v")) 3 (ascii "k") DELETED) :=
  ⟨by decide, c6_trigger_placement.2.2.1 (freshStore.put 0 (ascii "k") (ascii "v")) 3
    (ascii "k") (by decide)⟩

/-! ## The handler on READ lines -/

theorem stripBytes_read_line (k : List Nat) (hk : k ≠ [])
    (hw : ∀ b ∈ k, wsByte b = false) :
    stripBytes (ascii "READ " ++ k) = ascii "READ " ++ k := by
  rw [stripBytes]
  have h1 : (ascii "READ " ++ k).dropWhile wsByte = ascii "READ " ++ k := by
    rw [show ascii "READ " ++ k = 82 :: ([69, 65, 68, 32] ++ k) from rfl]
    rw [List.dropWhile_cons, if_neg (by decide)]
  rw [h1]
  obtain ⟨b, t, hbt⟩ := List.exists_cons_of_ne_nil
    (fun hh => hk (List.reverse_eq_nil_iff.mp hh))
  have hrev : (ascii "READ " ++ k).reverse = b :: (t ++ (ascii "READ ").reverse) := by
    rw [List.reverse_append, hbt, List.cons_append]
  have hb : wsByte b = false := hw b (by rw [← List.mem_reverse, hbt]; simp)
  rw [hrev, List.dropWhile_cons, if_neg (by simp [hb]), ← hrev, List.reverse_reverse]

theorem splitSpace1_read_line (k : List Nat) :
    splitSpace1 (ascii "READ " ++ k) = (ascii "READ", some k) := by
  show splitSpace1 (82 :: 69 :: 65 :: 68 :: 32 :: k) = ([82, 69, 65, 68], some k)
  simp [splitSpace1]

/-- The handler's behaviour on a well-formed `READ <key>` line is determined
by the engine's `read`. -/
theorem handle_read (s : KeyValueStore) (now : Nat) (k : List Nat)
    (hk : k ≠ []) (hw : ∀ b ∈ k, wsByte b = false) :
    handle s now (ascii "READ " ++ k) =
      (match s.read k with
       | .error _ => (errLine structErrMsg, s)
       | .ok none => (ascii "OK NULL" ++ [10], s)
       | .ok (some v) => (ascii "OK " ++ v ++ [10], s)) := by
  have hshut : ¬(ascii "READ " ++ k = ascii "SHUTDOWN") := by
    intro h
    rw [show ascii "READ " ++ k = 82 :: ([69, 65, 68, 32] ++ k) from rfl,
      show ascii "SHUTDOWN" = 83 :: [72, 85, 84, 68, 79, 87, 78] from rfl] at h
    injection h with h1 _
    exact absurd h1 (by decide)
  simp only [handle, stripBytes_read_line k hk hw, splitSpace1_read_line k,
    if_neg hshut]
  rw [if_neg (by decide), if_pos (by trivial)]

/-! ## Claim C10 -/

/-- C10: a stored, non-tombstone value that happens to be the four bytes
`NULL` is reported as `OK NULL`, byte-for-byte the same response a missing
or tombstoned key gets; the wire protocol cannot distinguish the two. -/
theorem c10_null_ambiguity :
    (∀ (s : KeyValueStore) (now : Nat) (k : List Nat), k ≠ [] →
      (∀ b ∈ k, wsByte b = false) → s.read k = .ok (some (ascii "NULL")) →
      (handle s now (ascii "READ " ++ k)).1 = ascii "OK NULL" ++ [10]) ∧
    (∀ (s : KeyValueStore) (now : Nat) (k : List Nat), k ≠ [] →
      (∀ b ∈ k, wsByte b = false) → s.read k = .ok none →
      (handle s now (ascii "READ " ++ k)).1 = ascii "OK NULL" ++ [10]) := by
  constructor
  · intro s now k hk hw hr
    rw [handle_read s now k hk hw, hr]
    rfl
  · intro s now k hk hw hr
    rw [handle_read s now k hk hw, hr]

/-- C10 (witness): a store whose key `x` holds the literal value `NULL`, and
a fresh store where `x` is absent, both answer `READ x` with `OK NULL`. -/
theorem c10_witness :
    (ascii "x" ≠ [] ∧ (∀ b ∈ ascii "x", wsByte b = false) ∧
      (freshStore.put 0 (ascii "x") (ascii "NULL")).read (ascii "x") =
        .ok (some (ascii "NULL")) ∧
      (handle (freshStore.put 0 (ascii "x") (ascii "NULL")) 0
        (ascii "READ " ++ ascii "x")).1 = ascii "OK NULL" ++ [10]) ∧
    (handle freshStore 0 (ascii "READ " ++ ascii "x")).1 = ascii "OK NULL" ++ [10] :=
  ⟨⟨by decide, by decide, rfl,
    c10_null_ambiguity.1 (freshStore.put 0 (ascii "x") (ascii "NULL")) 0 (ascii "x")
      (by decide) (by decide) rfl⟩,
    c10_null_ambiguity.2 freshStore 0 (ascii "x") (by decide) (by decide) rfl⟩

/-! ## Tombstone entries survive unrelated operations -/

theorem compactLoop_extends (old : List Nat) (idx : Idx) (acc : List Nat) :
    ∃ suffix, (compactLoop old idx acc).1 = acc ++ suffix := by
  induction idx generalizing acc with
  | nil => exact ⟨[], by simp [compactLoop]⟩
  | cons p rest ih =>
    obtain ⟨k0, p0, s0, t0⟩ := p
    obtain ⟨suf, hsuf⟩ := ih (acc ++ (old.drop p0).take s0)
    refine ⟨(old.drop p0).take s0 ++ suf, ?_⟩
    rw [compactLoop]
    rw [hsuf, List.append_assoc]

/-- Compaction moves an index entry whose slice is a full record, keeping
its size, timestamp and bytes. -/
theorem compactLoop_keeps (old : List Nat) (idx : Idx) (acc : List Nat)
    (k : List Nat) {pos sz ts : Nat} {B : List Nat}
    (hlk : alookup idx k = some (pos, sz, ts))
    (hslice : (old.drop pos).take sz = B) (hlen : B.length = sz) :
    ∃ pos', alookup (compactLoop old idx acc).2 k = some (pos', sz, ts) ∧
      (((compactLoop old idx acc).1).drop pos').take sz = B := by
  induction idx generalizing acc with
  | nil => simp [alookup] at hlk
  | cons p rest ih =>
    obtain ⟨k0, p0, s0, t0⟩ := p
    by_cases hk0 : k0 = k
    · simp only [alookup, if_pos hk0, Option.some.injEq, Prod.mk.injEq] at hlk
      obtain ⟨hp, hs, ht⟩ := hlk
      subst hp
      subst hs
      subst ht
      refine ⟨acc.length, ?_, ?_⟩
      · rw [compactLoop]
        simp [alookup, hk0]
      · rw [compactLoop]
        obtain ⟨suf, hsuf⟩ := compactLoop_extends old rest (acc ++ (old.drop p0).take s0)
        show ((compactLoop old rest (acc ++ (old.drop p0).take s0)).1.drop acc.length).take s0 = B
        rw [hsuf, hslice, List.append_assoc, List.drop_left, List.take_left' hlen]
    · have hlk' : alookup rest k = some (pos, sz, ts) := by
        have h' := hlk
        rw [alookup, if_neg hk0] at h'
        exact h'
      obtain ⟨pos', hl', hs'⟩ := ih (acc ++ (old.drop p0).take s0) hlk'
      refine ⟨pos', ?_, ?_⟩
      · rw [compactLoop]
        simp only [alookup, if_neg hk0]
        exact hl'
      · rw [compactLoop]
        exact hs'

theorem TombEntry_compact {s : KeyValueStore} {k : List Nat} (h : TombEntry s k) :
    TombEntry (compactStore s) k := by
  obtain ⟨h2, pos, ts, hlk, hslice⟩ := h
  have hlen : (encodeRecord ts k DELETED).length = 16 + k.length + 7 := by
    rw [length_encodeRecord]
    norm_num [DELETED]
  obtain ⟨pos', hl', hs'⟩ := compactLoop_keeps s.file s.keys [] k hlk hslice hlen
  exact ⟨h2, pos', ts, hl', hs'⟩

theorem TombEntry_append {s : KeyValueStore} {k : List Nat} (h : TombEntry s k)
    (now' : Nat) (k' v' : List Nat) (hne : k' ≠ k) :
    TombEntry (appendRecord s now' k' v') k := by
  obtain ⟨h2, pos, ts, hlk, hslice⟩ := h
  have hlen : (encodeRecord ts k DELETED).length = 16 + k.length + 7 := by
    rw [length_encodeRecord]
    norm_num [DELETED]
  have hle : pos + (16 + k.length + 7) ≤ s.file.length :=
    slice_full_le hslice hlen (by omega)
  refine ⟨h2, pos, ts, ?_, ?_⟩
  · show alookup (aset s.keys k' _) k = _
    rw [alookup_aset, if_neg hne]
    exact hlk
  · show (((s.file ++ encodeRecord now' k' v').drop pos).take (16 + k.length + 7)) = _
    rw [slice_append hle]
    exact hslice

theorem TombEntry_establish (s : KeyValueStore) (now : Nat) (k : List Nat)
    (h2 : k.length < 2 ^ 32) (hk : (alookup s.keys k).isSome) :
    TombEntry ((s.delete now k).1) k ∧ (s.delete now k).2 = true := by
  have hd := delete_eq s now k hk
  have hmid : TombEntry (appendRecord s now k DELETED) k := by
    refine ⟨h2, s.file.length, now, ?_, ?_⟩
    · show alookup (aset s.keys k (s.file.length, 16 + k.length + DELETED.length, now)) k = _
      rw [alookup_aset, if_pos rfl]
      norm_num [DELETED]
    · show ((s.file ++ encodeRecord now k DELETED).drop s.file.length).take
        (16 + k.length + 7) = _
      rw [List.drop_left]
      have hlen : (encodeRecord now k DELETED).length = 16 + k.length + 7 := by
        rw [length_encodeRecord]
        norm_num [DELETED]
      exact List.take_of_length_le (le_of_eq hlen)
  constructor
  · rw [hd]
    by_cases hc : compactionDue (appendRecord s now k DELETED)
    · simp only [hc, if_true]
      exact TombEntry_compact hmid
    · simp only [hc, if_false]
      exact hmid
  · rw [hd]

theorem TombEntry_read {s : KeyValueStore} {k : List Nat} (h : TombEntry s k) :
    s.read k = .ok none ∧ (alookup s.keys k).isSome := by
  obtain ⟨h2, pos, ts, hlk, hslice⟩ := h
  refine ⟨?_, by simp [hlk]⟩
  have hlen : (encodeRecord ts k DELETED).length = 16 + k.length + 7 := by
    rw [length_encodeRecord]
    norm_num [DELETED]
  have hheader : (s.file.drop pos).take 16 = packHeader ts k.length DELETED.length := by
    have h16 : (s.file.drop pos).take 16 = ((s.file.drop pos).take (16 + k.length + 7)).take 16 := by
      rw [List.take_take]
      congr 1
      omega
    rw [h16, hslice, encodeRecord_take_16]
  have hu2 : fromBe (((packHeader ts k.length DELETED.length).drop 8).take 4) = k.length := by
    rw [packHeader_mid, fromBe_beBytes_of_lt (by norm_num at h2 ⊢; omega)]
  have hu3 : fromBe (((packHeader ts k.length DELETED.length).drop 12).take 4) =
      DELETED.length := by
    rw [packHeader_drop_12, fromBe_beBytes_of_lt (by norm_num [DELETED])]
  have hval : (s.file.drop (pos + 16 + k.length)).take DELETED.length = DELETED := by
    have he : entryValue s.file k (pos, 16 + k.length + 7, ts) = DELETED :=
      entryValue_eq (by norm_num [DELETED]) hslice
    simp only [entryValue] at he
    have h7 : 16 + k.length + 7 - (16 + k.length) = DELETED.length := by
      norm_num [DELETED]
    rw [h7] at he
    exact he
  simp only [KeyValueStore.read, hlk, hheader, hu2, hu3, hval]
  rw [if_neg (by rw [length_packHeader]; omega)]
  simp

theorem TombEntry_batchLoop {k : List Nat} (now : Nat)
    (items : List (List Nat × List Nat)) :
    ∀ {s : KeyValueStore}, TombEntry s k → (∀ p ∈ items, p.1 ≠ k) →
    TombEntry (batchLoop s now items) k := by
  induction items with
  | nil => exact fun h _ => h
  | cons p items ih =>
    intro s h hav
    obtain ⟨k', v'⟩ := p
    exact ih (TombEntry_append h now k' v' (hav (k', v') (by simp)))
      (fun q hq => hav q (by simp [hq]))

theorem TombEntry_applyOp {s : KeyValueStore} {k : List Nat} {op : StoreOp}
    (h : TombEntry s k) (hav : avoidsKey k op) :
    ∃ s', applyOp s op = .ok s' ∧ TombEntry s' k := by
  cases op with
  | put now' k' v' =>
    refine ⟨_, rfl, ?_⟩
    rw [put_eq]
    by_cases hc : compactionDue s
    · rw [if_pos hc]
      exact TombEntry_append (TombEntry_compact h) now' k' v' hav
    · rw [if_neg hc]
      exact TombEntry_append h now' k' v' hav
  | del now' k' =>
    refine ⟨_, rfl, ?_⟩
    by_cases hk' : (alookup s.keys k').isSome
    · by_cases hkk : k' = k
      · subst hkk
        obtain ⟨h2, _, _, _, _⟩ := h
        exact (TombEntry_establish s now' k' h2 hk').1
      · have hd := delete_eq s now' k' hk'
        rw [hd]
        have hmid : TombEntry (appendRecord s now' k' DELETED) k :=
          TombEntry_append h now' k' DELETED hkk
        by_cases hc : compactionDue (appendRecord s now' k' DELETED)
        · simp only [hc, if_true]
          exact TombEntry_compact hmid
        · simp only [hc, if_false]
          exact hmid
    · rw [delete_eq_none s now' k' (by simpa using hk')]
      exact h
  | batch now' items =>
    refine ⟨_, rfl, ?_⟩
    show TombEntry (s.batch_put now' items) k
    rw [batch_put_eq]
    by_cases hc : compactionDue s
    · rw [if_pos hc]
      exact TombEntry_batchLoop now' items (TombEntry_compact h) hav
    · rw [if_neg hc]
      exact TombEntry_batchLoop now' items h hav
  | reopen => exact absurd hav (by simp [avoidsKey])

theorem TombEntry_applyOps {k : List Nat} (ops : List StoreOp) :
    ∀ {s : KeyValueStore}, TombEntry s k → (∀ op ∈ ops, avoidsKey k op) →
    ∃ s', applyOps s ops = .ok s' ∧ TombEntry s' k := by
  induction ops with
  | nil => exact fun h _ => ⟨_, rfl, h⟩
  | cons op ops ih =>
    intro s h hav
    obtain ⟨s1, hstep, h1⟩ := TombEntry_applyOp h (hav op (by simp))
    obtain ⟨s', happ, h'⟩ := ih h1 (fun q hq => hav q (by simp [hq]))
    exact ⟨s', by simp [applyOps, hstep, happ], h'⟩

/-! ## Claim C5 -/

/-- C5: deleting a present key succeeds, and until a subsequent put of that
key — across any further puts, deletes and batch puts that do not write it —
`read` reports it as not found, while the index still contains the key
pointing at a complete tombstone record. -/
theorem c5_delete_hides (s : KeyValueStore) (now : Nat) (k : List Nat)
    (h2 : k.length < 2 ^ 32) (hk : (alookup s.keys k).isSome) :
    (s.delete now k).2 = true ∧
    ∀ ops, (∀ op ∈ ops, avoidsKey k op) →
      ∃ s', applyOps (s.delete now k).1 ops = .ok s' ∧
        TombEntry s' k ∧ (alookup s'.keys k).isSome ∧ s'.read k = .ok none := by
  obtain ⟨htomb, htrue⟩ := TombEntry_establish s now k h2 hk
  refine ⟨htrue, ?_⟩
  intro ops hav
  obtain ⟨s', happ, h'⟩ := TombEntry_applyOps ops htomb hav
  obtain ⟨hread, hsome⟩ := TombEntry_read h'
  exact ⟨s', happ, h', hsome, hread⟩

/-- C5 (witness): delete key `a` from a store holding it, run a put of a
different key `b`, and observe the tombstone behaviour. -/
theorem c5_witness :
    (ascii "a").length < 2 ^ 32 ∧
    (alookup (freshStore.put 0 (ascii "a") (ascii "v")).keys (ascii "a")).isSome = true ∧
    ((freshStore.put 0 (ascii "a") (ascii "v")).delete 1 (ascii "a")).2 = true ∧
    ∃ s', applyOps ((freshStore.put 0 (ascii "a") (ascii "v")).delete 1 (ascii "a")).1
        [StoreOp.put 2 (ascii "b") (ascii "w")] = .ok s' ∧
      TombEntry s' (ascii "a") ∧ (alookup s'.keys (ascii "a")).isSome ∧
      s'.read (ascii "a") = .ok none := by
  have hav : ∀ op ∈ [StoreOp.put 2 (ascii "b") (ascii "w")], avoidsKey (ascii "a") op := by
    intro op hop
    rw [List.mem_singleton] at hop
    subst hop
    show ascii "b" ≠ ascii "a"
    decide
  have h := c5_delete_hides (freshStore.put 0 (ascii "a") (ascii "v")) 1 (ascii "a")
    (by decide) (by decide)
  exact ⟨by decide, by decide, h.1, h.2 [StoreOp.put 2 (ascii "b") (ascii "w")] hav⟩

/-! ## Claim C3 -/

theorem mlookup_mset (m : List (List Nat × List Nat)) (k k' v : List Nat) :
    mlookup (mset m k v) k' = if k = k' then some v else mlookup m k' := by
  induction m with
  | nil =>
    by_cases h : k = k' <;> simp [mset, mlookup, h]
  | cons p rest ih =>
    obtain ⟨k0, v0⟩ := p
    by_cases h1 : k0 = k
    · subst h1
      simp only [mset, if_pos rfl, mlookup]
      by_cases h2 : k0 = k' <;> simp [h2]
    · simp only [mset, if_neg h1, mlookup]
      by_cases h2 : k0 = k'
      · have hkk' : k ≠ k' := fun hh => h1 (h2.trans hh.symm)
        simp [h2, hkk']
      · rw [ih]
        simp [h2]

/-- Running put/delete sequences keeps the store's per-key view in lock-step
with the fresh in-memory last-writer-wins model. -/
theorem c3_run (ops : List StoreOp) :
    ∀ {s : KeyValueStore} {rs : List LogRecord} {m : List (List Nat × List Nat)},
    SInv s rs → (∀ k, lastRecVal rs k = mlookup m k) →
    (∀ op ∈ ops, isPD op) → (∀ op ∈ ops, OpOK op) →
    ∃ s' rs', applyOps s ops = .ok s' ∧ SInv s' rs' ∧
      ∀ k, lastRecVal rs' k = mlookup (modelRun' m ops) k := by
  induction ops with
  | nil => exact fun hinv hm _ _ => ⟨_, _, rfl, hinv, hm⟩
  | cons op ops ih =>
    intro s rs m hinv hm hpd hok
    cases op with
    | put now k v =>
      obtain ⟨h1, h2, h3⟩ := hok (StoreOp.put now k v) (by simp)
      obtain ⟨rs1, hinv1, hview⟩ := SInv_put_view hinv h1 h2 h3
      have hm1 : ∀ k', lastRecVal rs1 k' = mlookup (mset m k v) k' := by
        intro k'
        rw [hview k', mlookup_mset]
        by_cases hk : k = k' <;> simp [hk, hm k']
      obtain ⟨s', rs', happ, hinv', hm'⟩ :=
        ih hinv1 hm1 (fun q hq => hpd q (by simp [hq])) (fun q hq => hok q (by simp [hq]))
      refine ⟨s', rs', ?_, hinv', hm'⟩
      simp [applyOps, applyOp, happ]
    | del now k =>
      obtain ⟨h1, h2⟩ := hok (StoreOp.del now k) (by simp)
      have hbridge : (alookup s.keys k).isSome ↔ (mlookup m k).isSome := by
        have hv := view_SInv hinv k
        rw [keyView] at hv
        rw [← hm k, ← hv]
        cases alookup s.keys k <;> simp
      cases hlk : alookup s.keys k with
      | none =>
        have hmk : mlookup m k = none := by
          have := hbridge
          rw [hlk] at this
          cases hmlk : mlookup m k with
          | none => rfl
          | some v =>
            rw [hmlk] at this
            simp at this
        have hmodel : modelApply m (.del now k) = m := by
          simp [modelApply, hmk]
        obtain ⟨s', rs', happ, hinv', hm'⟩ :=
          ih hinv hm (fun q hq => hpd q (by simp [hq])) (fun q hq => hok q (by simp [hq]))
        refine ⟨s', rs', ?_, hinv', ?_⟩
        · simp [applyOps, applyOp, delete_eq_none s now k hlk, happ]
        · show ∀ k', lastRecVal rs' k' = mlookup (modelRun' (modelApply m (.del now k)) ops) k'
          rw [hmodel]
          exact hm'
      | some e =>
        obtain ⟨rs1, hinv1, _, hview⟩ := SInv_delete_some hinv (by simp [hlk]) h1 h2
        have hmk : (mlookup m k).isSome := hbridge.mp (by simp [hlk])
        have hm1 : ∀ k', lastRecVal rs1 k' = mlookup (mset m k DELETED) k' := by
          intro k'
          rw [hview k', mlookup_mset]
          by_cases hk : k = k' <;> simp [hk, hm k']
        obtain ⟨s', rs', happ, hinv', hm'⟩ :=
          ih hinv1 hm1 (fun q hq => hpd q (by simp [hq])) (fun q hq => hok q (by simp [hq]))
        refine ⟨s', rs', ?_, hinv', ?_⟩
        · simp [applyOps, applyOp, happ]
        · show ∀ k', lastRecVal rs' k' = mlookup (modelRun' (modelApply m (.del now k)) ops) k'
          simp only [modelApply, hmk, if_true]
          exact hm'
    | batch now items =>
      exact absurd (hpd (StoreOp.batch now items) (by simp)) (by simp [isPD])
    | reopen => exact absurd (hpd StoreOp.reopen (by simp)) (by simp [isPD])

/-- C3: for any sequence of puts and deletes from a fresh store, closing and
replaying the log yields exactly the in-memory index (and counters), and the
value each recovered index entry references is the last record written for
that key — the fresh in-memory last-writer-wins model (deletes installing
the tombstone the read path hides). -/
theorem c3_recovery_equivalence (ops : List StoreOp)
    (hpd : ∀ op ∈ ops, isPD op) (hok : ∀ op ∈ ops, OpOK op) :
    ∃ s, applyOps freshStore ops = .ok s ∧
      ∃ s', initStore (some s.file) = .ok s' ∧ s'.keys = s.keys ∧
        s'.data_size = s.data_size ∧ s'.deleted_size = s.deleted_size ∧
        ∀ k, keyView s' k = mlookup (modelRun ops) k := by
  obtain ⟨s, rs, happ, hinv, hm⟩ :=
    @c3_run ops freshStore [] [] SInv_fresh (fun _ => rfl) hpd hok
  refine ⟨s, happ, ⟨s.file, true, s.keys, s.data_size, s.deleted_size⟩, ?_, rfl, rfl, rfl, ?_⟩
  · rw [initStore, SInv_load hinv]
  · intro k
    have hview : keyView ⟨s.file, true, s.keys, s.data_size, s.deleted_size⟩ k =
        keyView s k := rfl
    have hinv' : SInv (⟨s.file, true, s.keys, s.data_size, s.deleted_size⟩ : KeyValueStore) rs :=
      ⟨hinv.1, hinv.2.1, by simp, hinv.2.2.2⟩
    rw [hview, view_SInv hinv k, hm k]
    rfl

/-- C3 (witness): the recovery-equivalence theorem applied to the concrete
sequence put a 1; delete a. -/
theorem c3_witness :
    ∃ s, applyOps freshStore [StoreOp.put 0 (ascii "a") (ascii "1"),
        StoreOp.del 1 (ascii "a")] = .ok s ∧
      ∃ s', initStore (some s.file) = .ok s' ∧ s'.keys = s.keys ∧
        s'.data_size = s.data_size ∧ s'.deleted_size = s.deleted_size ∧
        ∀ k, keyView s' k = mlookup (modelRun [StoreOp.put 0 (ascii "a") (ascii "1"),
          StoreOp.del 1 (ascii "a")]) k := by
  refine c3_recovery_equivalence _ ?_ ?_
  · intro op hop
    simp only [List.mem_cons, List.not_mem_nil, or_false] at hop
    rcases hop with rfl | rfl
    · exact trivial
    · exact trivial
  · intro op hop
    simp only [List.mem_cons, List.not_mem_nil, or_false] at hop
    rcases hop with rfl | rfl
    · exact ⟨by norm_num, by decide, by decide⟩
    · exact ⟨by norm_num, by decide⟩

/-! ## Claim C7 -/

theorem decodeFile_nil : decodeFile [] = some [] := by
  rw [decodeFile]
  simp

theorem decodeFile_cons (r : LogRecord) (tail : List Nat) (h : RecordOK r) :
    decodeFile (encodeRec r ++ tail) = (decodeFile tail).map (fun rs => r :: rs) := by
  have hlen : (encodeRec r ++ tail).length = recSize r + tail.length := by
    simp [length_encodeRec]
  have hsz : 16 ≤ recSize r := by
    simp only [recSize]
    omega
  have hne : encodeRec r ++ tail ≠ [] := List.ne_nil_of_length_pos (by omega)
  have hlt : ¬(encodeRec r ++ tail).length < 16 := by omega
  obtain ⟨u1, u2, u3⟩ := unpack_pack r h
  rw [decodeFile, if_neg hne, if_neg hlt]
  simp only [encodeRec_append_take, encodeRec_append_drop, u1, u2, u3,
    List.take_left, List.drop_left]
  rw [if_neg (by simp only [List.length_append]; omega)]
  cases hdec : decodeFile tail <;> simp [hdec]

theorem decodeFile_encodeAll (rs : List LogRecord) (hok : ∀ r ∈ rs, RecordOK r) :
    decodeFile (encodeAll rs) = some rs := by
  induction rs with
  | nil => exact decodeFile_nil
  | cons r rs ih =>
    rw [encodeAll, decodeFile_cons r _ (hok r (by simp)),
      ih (fun q hq => hok q (by simp [hq]))]
    rfl

theorem buildIdx_keys (rs : List LogRecord) (p : Nat) :
    (buildIdx p rs).map Prod.fst = rs.map LogRecord.key := by
  induction rs generalizing p with
  | nil => rfl
  | cons r rs ih => simp [buildIdx, ih]

theorem countP_key_eq_one {rs : List LogRecord} {k : List Nat}
    (hnd : (rs.map LogRecord.key).Nodup) (hm : k ∈ rs.map LogRecord.key) :
    (rs.countP fun r => r.key == k) = 1 := by
  induction rs with
  | nil => simp at hm
  | cons r rs ih =>
    rw [List.map_cons, List.nodup_cons] at hnd
    rw [List.countP_cons]
    by_cases hk : r.key = k
    · subst hk
      have hz : (rs.countP fun r' => r'.key == r.key) = 0 := by
        rw [List.countP_eq_zero]
        intro q hq
        simp only [beq_iff_eq]
        intro hqe
        exact hnd.1 (hqe ▸ List.mem_map.mpr ⟨q, hq, rfl⟩)
      simp [hz]
    · have hm' : k ∈ rs.map LogRecord.key := by
        rw [List.map_cons] at hm
        rcases List.mem_cons.mp hm with h' | h'
        · exact absurd h'.symm hk
        · exact h'
      simp [ih hnd.2 hm', hk]

/-- C7: on any store satisfying invariants 1–4 with a duplicate-free index,
compaction preserves invariants 1–4, zeroes `deleted_size`, makes
`data_size` the new file's byte length, and leaves a log that decodes to a
record sequence containing exactly one record for every live key. -/
theorem c7_compaction_postcondition (s : KeyValueStore)
    (h1 : Inv1 s) (_h2 : Inv2 s) (_h3 : Inv3 s) (_h4 : Inv4 s) (hnd : NodupKeys s) :
    Inv1 (compactStore s) ∧ Inv2 (compactStore s) ∧ Inv3 (compactStore s) ∧
    Inv4 (compactStore s) ∧ (compactStore s).deleted_size = 0 ∧
    (compactStore s).data_size = (compactStore s).file.length ∧
    ∃ rs, decodeFile (compactStore s).file = some rs ∧
      ∀ k, liveKey (compactStore s) k →
        (rs.countP fun r => r.key == k) = 1 := by
  have hpts : ∀ p ∈ s.keys, EntryPoints s.file p.1 p.2 := by
    intro p hp
    obtain ⟨k0, e0⟩ := p
    exact h1 k0 e0 (alookup_of_mem_nodup hnd hp)
  have hcl := compactLoop_eq s.file s.keys [] hpts
  have hok : ∀ r ∈ liveRecs s.file s.keys, RecordOK r := by
    intro r hr
    simp only [liveRecs, List.mem_map] at hr
    obtain ⟨p, hp, hpr⟩ := hr
    obtain ⟨k0, e0⟩ := p
    obtain ⟨v, hvok, hvsz, hvslice⟩ := hpts _ hp
    have hval : entryValue s.file k0 e0 = v := entryValue_eq hvsz hvslice
    rw [← hpr]
    simp only [entryRec, hval]
    exact hvok
  have hndlive : ((liveRecs s.file s.keys).map LogRecord.key).Nodup := by
    rw [liveRecs_keys]
    exact hnd
  have hfile : (compactStore s).file = encodeAll (liveRecs s.file s.keys) := by
    simp [compactStore, hcl]
  have hkeys : (compactStore s).keys = buildIdx 0 (liveRecs s.file s.keys) := by
    simp [compactStore, hcl]
  have hdata : (compactStore s).data_size = (compactStore s).file.length := by
    simp [compactStore]
  have hdels : (compactStore s).deleted_size = 0 := by
    simp [compactStore]
  refine ⟨?_, ?_, hdata, ?_, hdels, hdata, ?_⟩
  · intro k e he
    rw [hkeys] at he
    have hmem := alookup_mem he
    have hbp := buildIdx_points (liveRecs s.file s.keys) [] hok
    simp only [List.length_nil, List.nil_append] at hbp
    rw [hfile]
    exact hbp (k, e) hmem
  · refine ⟨(encodeAll (liveRecs s.file s.keys)).length, 0, ?_⟩
    rw [hfile, hkeys, loadLoop_encodeAll _ hok 0 [] 0 0,
      replay_distinct _ 0 [] 0 0 (by simp) hndlive]
    simp [stProj, length_encodeAll]
  · show (compactStore s).deleted_size ≤ (compactStore s).data_size
    rw [hdels]
    omega
  · refine ⟨liveRecs s.file s.keys, ?_, ?_⟩
    · rw [hfile]
      exact decodeFile_encodeAll _ hok
    · intro k hlk
      obtain ⟨e, he, _⟩ := hlk
      have hmemk : k ∈ (liveRecs s.file s.keys).map LogRecord.key := by
        rw [← buildIdx_keys (liveRecs s.file s.keys) 0, ← alookup_isSome_iff, ← hkeys]
        simp [he]
      exact countP_key_eq_one hndlive hmemk

/-- C7 (witness): the compaction postcondition applied to a concrete store
holding two keys. -/
theorem c7_witness :
    (Inv1 ((freshStore.put 0 (ascii "a") (ascii "1")).put 1 (ascii "b") (ascii "2")) ∧
      Inv2 ((freshStore.put 0 (ascii "a") (ascii "1")).put 1 (ascii "b") (ascii "2")) ∧
      Inv3 ((freshStore.put 0 (ascii "a") (ascii "1")).put 1 (ascii "b") (ascii "2")) ∧
      Inv4 ((freshStore.put 0 (ascii "a") (ascii "1")).put 1 (ascii "b") (ascii "2")) ∧
      NodupKeys ((freshStore.put 0 (ascii "a") (ascii "1")).put 1 (ascii "b") (ascii "2"))) ∧
    (Inv1 (compactStore ((freshStore.put 0 (ascii "a") (ascii "1")).put 1 (ascii "b") (ascii "2"))) ∧
      Inv2 (compactStore ((freshStore.put 0 (ascii "a") (ascii "1")).put 1 (ascii "b") (ascii "2"))) ∧
      Inv3 (compactStore ((freshStore.put 0 (ascii "a") (ascii "1")).put 1 (ascii "b") (ascii "2"))) ∧
      Inv4 (compactStore ((freshStore.put 0 (ascii "a") (ascii "1")).put 1 (ascii "b") (ascii "2"))) ∧
      (compactStore ((freshStore.put 0 (ascii "a") (ascii "1")).put 1 (ascii "b") (ascii "2"))).deleted_size = 0 ∧
      (compactStore ((freshStore.put 0 (ascii "a") (ascii "1")).put 1 (ascii "b") (ascii "2"))).data_size =
        (compactStore ((freshStore.put 0 (ascii "a") (ascii "1")).put 1 (ascii "b") (ascii "2"))).file.length ∧
      ∃ rs, decodeFile (compactStore ((freshStore.put 0 (ascii "a") (ascii "1")).put 1
          (ascii "b") (ascii "2"))).file = some rs ∧
        ∀ k, liveKey (compactStore ((freshStore.put 0 (ascii "a") (ascii "1")).put 1
            (ascii "b") (ascii "2"))) k →
          (rs.countP fun r => r.key == k) = 1) := by
  have hinv : SInv ((freshStore.put 0 (ascii "a") (ascii "1")).put 1 (ascii "b") (ascii "2"))
      [⟨0, ascii "a", ascii "1"⟩, ⟨1, ascii "b", ascii "2"⟩] := by
    refine ⟨?_, by decide, by decide, by decide⟩
    intro r hr
    simp only [List.mem_cons, List.not_mem_nil, or_false] at hr
    rcases hr with rfl | rfl
    · exact ⟨by norm_num, by decide, by decide⟩
    · exact ⟨by norm_num, by decide, by decide⟩
  have h1 := SInv_Inv1 hinv
  have h2 : Inv2 ((freshStore.put 0 (ascii "a") (ascii "1")).put 1 (ascii "b") (ascii "2")) :=
    ⟨_, _, SInv_load hinv⟩
  have h3 : Inv3 ((freshStore.put 0 (ascii "a") (ascii "1")).put 1 (ascii "b") (ascii "2")) :=
    SInv_data hinv
  have h4 : Inv4 ((freshStore.put 0 (ascii "a") (ascii "1")).put 1 (ascii "b") (ascii "2")) := by
    unfold Inv4
    decide
  have hnd := SInv_keys_nodup hinv
  exact ⟨⟨h1, h2, h3, h4, hnd⟩, c7_compaction_postcondition _ h1 h2 h3 h4 hnd⟩

/-! ## Lexicographic order on keys -/

theorem lexLt_nil_right (a : List Nat) : lexLt a [] = false := by
  cases a <;> rfl

theorem lexLt_trans : ∀ {a b c : List Nat},
    lexLt a b = true → lexLt b c = true → lexLt a c = true := by
  intro a
  induction a with
  | nil =>
    intro b c h1 h2
    cases c with
    | nil =>
      rw [lexLt_nil_right] at h2
      exact absurd h2 (by simp)
    | cons z zs => rfl
  | cons x xs ih =>
    intro b c h1 h2
    cases b with
    | nil =>
      rw [lexLt_nil_right] at h1
      exact absurd h1 (by simp)
    | cons y ys =>
      cases c with
      | nil =>
        rw [lexLt_nil_right] at h2
        exact absurd h2 (by simp)
      | cons z zs =>
        simp only [lexLt, Bool.or_eq_true, decide_eq_true_eq, Bool.and_eq_true] at h1 h2 ⊢
        rcases h1 with h1 | ⟨hxy, h1⟩
        · rcases h2 with h2 | ⟨hyz, h2⟩
          · exact Or.inl (by omega)
          · exact Or.inl (by omega)
        · rcases h2 with h2 | ⟨hyz, h2⟩
          · exact Or.inl (by omega)
          · exact Or.inr ⟨by omega, ih h1 h2⟩

theorem lex_trichotomy (a : List Nat) : ∀ b, lexLt a b = true ∨ a = b ∨ lexLt b a = true := by
  induction a with
  | nil =>
    intro b
    cases b with
    | nil => exact Or.inr (Or.inl rfl)
    | cons y ys => exact Or.inl rfl
  | cons x xs ih =>
    intro b
    cases b with
    | nil => exact Or.inr (Or.inr rfl)
    | cons y ys =>
      rcases Nat.lt_trichotomy x y with h | h | h
      · exact Or.inl (by simp [lexLt, h])
      · subst h
        rcases ih ys with h2 | h2 | h2
        · exact Or.inl (by simp [lexLt, h2])
        · exact Or.inr (Or.inl (by rw [h2]))
        · exact Or.inr (Or.inr (by simp [lexLt, h2]))
      · exact Or.inr (Or.inr (by simp [lexLt, h]))

theorem lexLe_total (a b : List Nat) : lexLe a b = true ∨ lexLe b a = true := by
  rcases lex_trichotomy a b with h | h | h
  · exact Or.inl (by simp [lexLe, h])
  · exact Or.inl (by simp [lexLe, h])
  · exact Or.inr (by simp [lexLe, h])

theorem lexLe_trans {a b c : List Nat} (h1 : lexLe a b = true) (h2 : lexLe b c = true) :
    lexLe a c = true := by
  simp only [lexLe, Bool.or_eq_true, decide_eq_true_eq] at h1 h2 ⊢
  rcases h1 with h1 | rfl
  · rcases h2 with h2 | rfl
    · exact Or.inl (lexLt_trans h1 h2)
    · exact Or.inl h1
  · exact h2

theorem sortKeys_sorted (l : List (List Nat)) :
    List.Pairwise (fun a b => lexLe a b = true) (sortKeys l) := by
  letI : IsTotal (List Nat) (fun a b => lexLe a b = true) := ⟨lexLe_total⟩
  letI : IsTrans (List Nat) (fun a b => lexLe a b = true) :=
    ⟨fun a b c h1 h2 => lexLe_trans h1 h2⟩
  exact List.sorted_insertionSort _ l

theorem sortKeys_mem (l : List (List Nat)) (k : List Nat) :
    k ∈ sortKeys l ↔ k ∈ l :=
  (List.perm_insertionSort _ l).mem_iff

/-! ## Claim C9 -/

/-- The header fields and value bytes a positioned read recovers at a valid
index entry. -/
theorem entry_parse {file : List Nat} {k : List Nat} {e : Entry}
    (hpt : EntryPoints file k e) :
    ∃ v, entryValue file k e = v ∧
      ¬((file.drop e.1).take 16).length < 16 ∧
      fromBe ((((file.drop e.1).take 16).drop 8).take 4) = k.length ∧
      fromBe ((((file.drop e.1).take 16).drop 12).take 4) = v.length ∧
      (file.drop (e.1 + 16 + k.length)).take v.length = v := by
  obtain ⟨v, hok, hsz, hslice⟩ := hpt
  obtain ⟨hts, hkl, hvl⟩ := hok
  have hval : entryValue file k e = v := entryValue_eq hsz hslice
  have hheader : (file.drop e.1).take 16 = packHeader e.2.2 k.length v.length := by
    have h16 : (file.drop e.1).take 16 = ((file.drop e.1).take e.2.1).take 16 := by
      rw [List.take_take]
      congr 1
      omega
    rw [h16, hslice, encodeRecord_take_16]
  have hvv : (file.drop (e.1 + 16 + k.length)).take v.length = v := by
    have hev := entryValue_eq hsz hslice
    simp only [entryValue] at hev
    have h7 : e.2.1 - (16 + k.length) = v.length := by omega
    rw [h7] at hev
    exact hev
  refine ⟨v, hval, ?_, ?_, ?_, hvv⟩
  · rw [hheader, length_packHeader]
    omega
  · rw [hheader, packHeader_mid, fromBe_beBytes_of_lt (by norm_num at hkl ⊢; omega)]
  · rw [hheader, packHeader_drop_12, fromBe_beBytes_of_lt (by norm_num at hvl ⊢; omega)]

/-- `read` at a key whose entry is valid returns the referenced value,
hiding the tombstone. -/
theorem read_entry {s : KeyValueStore} {k : List Nat} {e : Entry}
    (hlk : alookup s.keys k = some e) (hpt : EntryPoints s.file k e) :
    s.read k = .ok (if entryValue s.file k e = DELETED then none
      else some (entryValue s.file k e)) := by
  obtain ⟨v, hval, hlen16, hu2, hu3, hvv⟩ := entry_parse hpt
  obtain ⟨pos, sz, ts⟩ := e
  simp only at hval hlen16 hu2 hu3 hvv
  simp only [KeyValueStore.read, hlk, hu2, hu3, hvv]
  rw [if_neg hlen16, hval]
  by_cases hd : v = DELETED <;> simp [hd]

/-- The value-reading loop of `read_key_range` returns, for each snapshotted
key, exactly what `read` returns for it (dropping the not-found ones). -/
theorem rangeReadLoop_eq {s : KeyValueStore} {rs : List LogRecord} (h : SInv s rs) :
    ∀ (l : List (List Nat × Nat × Nat)),
    (∀ x ∈ l, ∃ ts, alookup s.keys x.1 = some (x.2.1, x.2.2, ts)) →
    rangeReadLoop s.file l = l.filterMap (fun x =>
      match s.read x.1 with
      | .ok (some v) => some (x.1, v)
      | _ => none) := by
  intro l
  induction l with
  | nil => exact fun _ => rfl
  | cons x l ih =>
    intro hl
    obtain ⟨k, pos, sz⟩ := x
    obtain ⟨ts, hlk⟩ := hl (k, pos, sz) (by simp)
    have hpt := SInv_Inv1 h k _ hlk
    have hread := read_entry hlk hpt
    obtain ⟨v, hval, hlen16, hu2, hu3, hvv⟩ := entry_parse hpt
    simp only at hval hlen16 hu2 hu3 hvv
    rw [hval] at hread
    rw [rangeReadLoop, List.filterMap_cons]
    simp only [hu2, hu3, hvv, hread]
    by_cases hd : v = DELETED
    · simp only [hd, if_pos rfl]
      rw [ih (fun q hq => hl q (by simp [hq]))]
      simp
    · simp only [if_neg hd]
      rw [ih (fun q hq => hl q (by simp [hq]))]


/-- C9 (counterexample): on a freshly started store whose data file was
never created, `read_key_range` unconditionally opens the data file and the
open raises `FileNotFoundError`, instead of returning the empty pair list
that the empty index calls for. -/
theorem c9_counterexample :
    freshStore.read_key_range (ascii "a") (ascii "b") = .error () := rfl

/-- C9 (amended): once the data file exists, `read_key_range start_key
end_key` succeeds and returns exactly the pairs `(k, v)` with
`start_key ≤ k ≤ end_key` (inclusive at both ends) and `read k = v` — the
keys whose latest record is not a tombstone — in ascending key order. -/
theorem c9_range_read (s : KeyValueStore) (rs : List LogRecord) (h : SInv s rs)
    (hex : s.fileExists = true) (start_key end_key : List Nat)
    (_hr : lexLe start_key end_key = true) :
    ∃ res, s.read_key_range start_key end_key = .ok res ∧
      (∀ k v, (k, v) ∈ res ↔
        (lexLe start_key k = true ∧ lexLe k end_key = true ∧
          s.read k = .ok (some v))) ∧
      List.Pairwise (fun p q : List Nat × List Nat => lexLe p.1 q.1 = true) res := by
  have hshape : ∀ (k0 : List Nat) (x : List Nat × Nat × Nat),
      (if lexLe start_key k0 && lexLe k0 end_key then
        (alookup s.keys k0).map (fun e => (k0, e.1, e.2.1)) else none) = some x →
      x.1 = k0 ∧ lexLe start_key k0 = true ∧ lexLe k0 end_key = true ∧
        ∃ ts, alookup s.keys k0 = some (x.2.1, x.2.2, ts) := by
    intro k0 x hk0
    by_cases hc : (lexLe start_key k0 && lexLe k0 end_key) = true
    · rw [if_pos hc] at hk0
      rw [Bool.and_eq_true] at hc
      obtain ⟨h1, h2⟩ := hc
      cases halk : alookup s.keys k0 with
      | none => rw [halk] at hk0; exact Option.noConfusion hk0
      | some e =>
        obtain ⟨pos, sz, ts⟩ := e
        rw [halk] at hk0
        injection hk0 with hh
        rw [← hh]
        exact ⟨rfl, h1, h2, ts, rfl⟩
    · rw [if_neg hc] at hk0
      exact Option.noConfusion hk0
  have hfshape : ∀ (x : List Nat × Nat × Nat) (p : List Nat × List Nat),
      (match s.read x.1 with
        | .ok (some v) => some (x.1, v)
        | _ => none) = some p →
      s.read x.1 = .ok (some p.2) ∧ p.1 = x.1 := by
    intro x p hp
    cases hrd : s.read x.1 with
    | error u => rw [hrd] at hp; exact Option.noConfusion hp
    | ok o =>
      cases o with
      | none => rw [hrd] at hp; exact Option.noConfusion hp
      | some v0 =>
        rw [hrd] at hp
        injection hp with hh
        rw [← hh]
        exact ⟨rfl, rfl⟩
  have hsnap : ∀ x ∈ (sortKeys (s.keys.map Prod.fst)).filterMap (fun k =>
      if lexLe start_key k && lexLe k end_key then
        (alookup s.keys k).map (fun e => (k, e.1, e.2.1)) else none),
      ∃ ts, alookup s.keys x.1 = some (x.2.1, x.2.2, ts) := by
    intro x hx
    obtain ⟨k0, hk0mem, hk0⟩ := List.mem_filterMap.mp hx
    obtain ⟨hx1, _, _, ts, halk⟩ := hshape k0 x hk0
    exact ⟨ts, by rw [hx1]; exact halk⟩
  refine ⟨rangeReadLoop s.file ((sortKeys (s.keys.map Prod.fst)).filterMap (fun k =>
      if lexLe start_key k && lexLe k end_key then
        (alookup s.keys k).map (fun e => (k, e.1, e.2.1)) else none)), ?_, ?_, ?_⟩
  · simp [KeyValueStore.read_key_range, hex]
  · intro k v
    rw [rangeReadLoop_eq h _ hsnap]
    constructor
    · intro hmem
      obtain ⟨x, hx, hfx⟩ := List.mem_filterMap.mp hmem
      obtain ⟨hrd, hp1⟩ := hfshape x (k, v) hfx
      obtain ⟨k0, hk0mem, hk0⟩ := List.mem_filterMap.mp hx
      obtain ⟨hx1, h1, h2, _, _⟩ := hshape k0 x hk0
      have hkx : k = x.1 := hp1
      refine ⟨?_, ?_, ?_⟩
      · rw [hkx, hx1]; exact h1
      · rw [hkx, hx1]; exact h2
      · rw [hkx]; exact hrd
    · rintro ⟨h1, h2, hread⟩
      cases halk : alookup s.keys k with
      | none => simp [KeyValueStore.read, halk] at hread
      | some e =>
        refine List.mem_filterMap.mpr
          ⟨(k, e.1, e.2.1), List.mem_filterMap.mpr ⟨k, ?_, ?_⟩, ?_⟩
        · refine (sortKeys_mem _ _).mpr ?_
          refine (alookup_isSome_iff _ _).mp ?_
          rw [halk]; rfl
        · show (if lexLe start_key k && lexLe k end_key then
              (alookup s.keys k).map (fun e => (k, e.1, e.2.1)) else none) =
            some (k, e.1, e.2.1)
          rw [if_pos (by rw [Bool.and_eq_true]; exact ⟨h1, h2⟩ :
            (lexLe start_key k && lexLe k end_key) = true), halk]
          rfl
        · simp [hread]
  · rw [rangeReadLoop_eq h _ hsnap]
    refine List.pairwise_filterMap.mpr ?_
    refine List.pairwise_filterMap.mpr ?_
    refine List.Pairwise.imp ?_ (sortKeys_sorted (s.keys.map Prod.fst))
    intro a b hab
    intro x hgx y hgy p hfp q hfq
    obtain ⟨hxa, _, _, _, _⟩ := hshape a x (Option.mem_def.mp hgx)
    obtain ⟨hyb, _, _, _, _⟩ := hshape b y (Option.mem_def.mp hgy)
    obtain ⟨_, hpx⟩ := hfshape x p (Option.mem_def.mp hfp)
    obtain ⟨_, hqy⟩ := hfshape y q (Option.mem_def.mp hfq)
    rw [hpx, hqy, hxa, hyb]
    exact hab

/-- Witness for `c9_range_read`: a concrete two-key store satisfying its
hypotheses, on which the amended range-read property holds. -/
theorem c9_witness :
    (SInv ((freshStore.put 0 (ascii "a") (ascii "1")).put 1 (ascii "b") (ascii "2"))
        [⟨0, ascii "a", ascii "1"⟩, ⟨1, ascii "b", ascii "2"⟩] ∧
      ((freshStore.put 0 (ascii "a") (ascii "1")).put 1 (ascii "b")
        (ascii "2")).fileExists = true ∧
      lexLe (ascii "a") (ascii "c") = true) ∧
    ∃ res, ((freshStore.put 0 (ascii "a") (ascii "1")).put 1 (ascii "b")
        (ascii "2")).read_key_range (ascii "a") (ascii "c") = .ok res ∧
      (∀ k v, (k, v) ∈ res ↔
        (lexLe (ascii "a") k = true ∧ lexLe k (ascii "c") = true ∧
          ((freshStore.put 0 (ascii "a") (ascii "1")).put 1 (ascii "b")
            (ascii "2")).read k = .ok (some v))) ∧
      List.Pairwise (fun p q : List Nat × List Nat => lexLe p.1 q.1 = true) res := by
  have hinv : SInv ((freshStore.put 0 (ascii "a") (ascii "1")).put 1 (ascii "b") (ascii "2"))
      [⟨0, ascii "a", ascii "1"⟩, ⟨1, ascii "b", ascii "2"⟩] := by
    refine ⟨?_, by decide, by decide, by decide⟩
    intro r hr
    simp only [List.mem_cons, List.not_mem_nil, or_false] at hr
    rcases hr with rfl | rfl
    · exact ⟨by norm_num, by decide, by decide⟩
    · exact ⟨by norm_num, by decide, by decide⟩
  exact ⟨⟨hinv, by decide, by decide⟩,
    c9_range_read _ _ hinv (by decide) (ascii "a") (ascii "c") (by decide)⟩

/-! ## Claim C8 -/

theorem recSize_pos (r : LogRecord) : 0 < recSize r := by
  simp only [recSize]
  omega

theorem unrefGarbage_append (idx : Idx) (as bs : List LogRecord) :
    ∀ pos, unrefGarbage idx pos (as ++ bs) =
      unrefGarbage idx pos as + unrefGarbage idx (pos + totalSize as) bs := by
  induction as with
  | nil => intro pos; simp [unrefGarbage, totalSize]
  | cons a as ih =>
    intro pos
    rw [List.cons_append]
    simp only [unrefGarbage, totalSize]
    rw [ih (pos + recSize a), Nat.add_assoc]
    omega

theorem referencedBy_iff (idx : Idx) (p : Nat) :
    referencedBy idx p = true ↔ ∃ q ∈ idx, q.2.1 = p := by
  simp [referencedBy]

theorem referencedBy_append_single (idx : Idx) (q : List Nat × Entry) (p : Nat) :
    referencedBy (idx ++ [q]) p = (referencedBy idx p || decide (q.2.1 = p)) := by
  simp [referencedBy, List.any_append]

theorem aset_self_mem (k : List Nat) (e : Entry) :
    ∀ idx : Idx, (k, e) ∈ aset idx k e := by
  intro idx
  induction idx with
  | nil => simp [aset]
  | cons q rest ih =>
    obtain ⟨k0, e0⟩ := q
    simp only [aset]
    by_cases h0 : k0 = k
    · rw [if_pos h0]
      exact List.mem_cons_self _ _
    · rw [if_neg h0]
      exact List.mem_cons_of_mem _ ih

theorem aset_mem_of_ne (e : Entry) (k : List Nat) :
    ∀ (idx : Idx) (q : List Nat × Entry), q ∈ idx → q.1 ≠ k → q ∈ aset idx k e := by
  intro idx
  induction idx with
  | nil => intro q hq _; simp at hq
  | cons p rest ih =>
    intro q hq hne
    obtain ⟨k0, e0⟩ := p
    simp only [aset]
    rcases List.mem_cons.mp hq with rfl | hm
    · rw [if_neg (fun hh => hne hh)]
      exact List.mem_cons_self _ _
    · by_cases h0 : k0 = k
      · rw [if_pos h0]
        exact List.mem_cons_of_mem _ hm
      · rw [if_neg h0]
        exact List.mem_cons_of_mem _ (ih q hm hne)

theorem aset_mem_strong (k : List Nat) (e : Entry) :
    ∀ (idx : Idx) (p : List Nat × Entry), (idx.map Prod.fst).Nodup →
    p ∈ aset idx k e → p = (k, e) ∨ (p ∈ idx ∧ p.1 ≠ k) := by
  intro idx
  induction idx with
  | nil =>
    intro p _ h
    simp [aset] at h
    exact Or.inl h
  | cons q rest ih =>
    intro p hnd h
    obtain ⟨k0, e0⟩ := q
    simp only [List.map_cons, List.nodup_cons] at hnd
    simp only [aset] at h
    by_cases h0 : k0 = k
    · rw [if_pos h0] at h
      rcases List.mem_cons.mp h with rfl | hm
      · exact Or.inl rfl
      · refine Or.inr ⟨List.mem_cons_of_mem _ hm, fun hk => ?_⟩
        exact hnd.1 ((hk.trans h0.symm) ▸ List.mem_map.mpr ⟨p, hm, rfl⟩)
    · rw [if_neg h0] at h
      rcases List.mem_cons.mp h with rfl | hm
      · exact Or.inr ⟨List.mem_cons_self _ _, fun hk => h0 hk⟩
      · rcases ih p hnd.2 hm with h1 | ⟨h2, h3⟩
        · exact Or.inl h1
        · exact Or.inr ⟨List.mem_cons_of_mem _ h2, h3⟩

theorem unrefGarbage_congr (idx1 idx2 : Idx) :
    ∀ (rs : List LogRecord) (pos : Nat),
    (∀ p, pos ≤ p → p < pos + totalSize rs →
      referencedBy idx1 p = referencedBy idx2 p) →
    unrefGarbage idx1 pos rs = unrefGarbage idx2 pos rs := by
  intro rs
  induction rs with
  | nil => intro pos _; rfl
  | cons r rs ih =>
    intro pos h
    have htot : totalSize (r :: rs) = recSize r + totalSize rs := rfl
    have hrp := recSize_pos r
    have hhead : referencedBy idx1 pos = referencedBy idx2 pos :=
      h pos (le_refl pos) (by omega)
    have hT := ih (pos + recSize r) (fun p hp1 hp2 => h p (by omega) (by omega))
    simp only [unrefGarbage]
    rw [hhead, hT]

theorem totalSize_take_succ :
    ∀ (rs : List LogRecord) (j : Nat) (hj : j < rs.length),
    totalSize (rs.take (j + 1)) = totalSize (rs.take j) + recSize (rs.get ⟨j, hj⟩) := by
  intro rs
  induction rs with
  | nil => intro j hj; simp at hj
  | cons r rs ih =>
    intro j hj
    cases j with
    | zero => simp [totalSize]
    | succ j =>
      have hj' : j < rs.length := by
        simp only [List.length_cons] at hj
        omega
      rw [List.take_succ_cons, List.take_succ_cons]
      have h1 : totalSize (r :: rs.take (j + 1)) =
          recSize r + totalSize (rs.take (j + 1)) := rfl
      have h2 : totalSize (r :: rs.take j) = recSize r + totalSize (rs.take j) := rfl
      rw [h1, h2, ih j hj']
      have h3 : recSize ((r :: rs).get ⟨j + 1, hj⟩) = recSize (rs.get ⟨j, hj'⟩) := rfl
      rw [h3]
      omega

theorem totalSize_take_lt (rs : List LogRecord) :
    ∀ (j2 j1 : Nat), j1 < j2 → j2 ≤ rs.length →
    totalSize (rs.take j1) < totalSize (rs.take j2) := by
  intro j2
  induction j2 with
  | zero => intro j1 h1 _; omega
  | succ m ih =>
    intro j1 h1 h2
    have hm : m < rs.length := by omega
    rw [totalSize_take_succ rs m hm]
    have hp := recSize_pos (rs.get ⟨m, hm⟩)
    rcases Nat.lt_or_ge j1 m with hlt | hge
    · have h3 := ih j1 hlt (by omega)
      omega
    · have hj1 : j1 = m := by omega
      subst hj1
      omega

theorem lastEntryFrom_index :
    ∀ (rs : List LogRecord) (p0 : Nat) (k : List Nat) (e : Entry),
    lastEntryFrom p0 k rs = some e →
    ∃ j, ∃ hj : j < rs.length, (rs.get ⟨j, hj⟩).key = k ∧
      e.1 = p0 + totalSize (rs.take j) ∧ e.2.1 = recSize (rs.get ⟨j, hj⟩) := by
  intro rs
  induction rs with
  | nil => intro p0 k e h; exact Option.noConfusion h
  | cons r rs ih =>
    intro p0 k e h
    have hdef : lastEntryFrom p0 k (r :: rs) =
        match lastEntryFrom (p0 + recSize r) k rs with
        | some e => some e
        | none => if r.key = k then some (p0, recSize r, r.ts) else none := rfl
    cases hl : lastEntryFrom (p0 + recSize r) k rs with
    | some e2 =>
      rw [hdef, hl] at h
      have h3 : (some e2 : Option Entry) = some e := h
      injection h3 with h4
      subst h4
      obtain ⟨j, hj, hk1, hp1, hs1⟩ := ih (p0 + recSize r) k e2 hl
      refine ⟨j + 1, Nat.succ_lt_succ hj, hk1, ?_, hs1⟩
      have htake : totalSize ((r :: rs).take (j + 1)) =
          recSize r + totalSize (rs.take j) := by
        rw [List.take_succ_cons]
        rfl
      omega
    | none =>
      rw [hdef, hl] at h
      by_cases hk : r.key = k
      · rw [if_pos hk] at h
        have h3 : (some (p0, recSize r, r.ts) : Option Entry) = some e := h
        injection h3 with h4
        refine ⟨0, Nat.succ_pos _, hk, ?_, ?_⟩
        · rw [← h4]
          simp [totalSize]
        · rw [← h4]
          rfl
      · rw [if_neg hk] at h
        exact Option.noConfusion h

theorem unrefGarbage_flip (idx1 idx2 : Idx) :
    ∀ (rs : List LogRecord) (pos j0 : Nat) (hj : j0 < rs.length) (P sz : Nat),
    P = pos + totalSize (rs.take j0) →
    sz = recSize (rs.get ⟨j0, hj⟩) →
    (∀ p, pos ≤ p → p < pos + totalSize rs → p ≠ P →
      referencedBy idx1 p = referencedBy idx2 p) →
    referencedBy idx1 P = true →
    referencedBy idx2 P = false →
    unrefGarbage idx2 pos rs = unrefGarbage idx1 pos rs + sz := by
  intro rs
  induction rs with
  | nil => intro pos j0 hj; simp at hj
  | cons r rs ih =>
    intro pos j0 hj P sz hP hsz hcong h1 h2
    have htot : totalSize (r :: rs) = recSize r + totalSize rs := rfl
    have hrp := recSize_pos r
    cases j0 with
    | zero =>
      have hPeq : P = pos := by simpa [totalSize] using hP
      subst hPeq
      have hsz' : sz = recSize r := hsz
      subst hsz'
      have hT : unrefGarbage idx2 (P + recSize r) rs =
          unrefGarbage idx1 (P + recSize r) rs :=
        unrefGarbage_congr idx2 idx1 rs (P + recSize r)
          (fun p hp1 hp2 => (hcong p (by omega) (by omega) (by omega)).symm)
      simp only [unrefGarbage]
      simp [h1, h2, hT]
      omega
    | succ j =>
      have hj' : j < rs.length := by
        simp only [List.length_cons] at hj
        omega
      have htake : totalSize ((r :: rs).take (j + 1)) =
          recSize r + totalSize (rs.take j) := by
        rw [List.take_succ_cons]
        rfl
      have hsz' : sz = recSize (rs.get ⟨j, hj'⟩) := hsz
      have hT := ih (pos + recSize r) j hj' P sz (by omega) hsz'
        (fun p hp1 hp2 hp3 => hcong p (by omega) (by omega) hp3) h1 h2
      have hhead : referencedBy idx1 pos = referencedBy idx2 pos :=
        hcong pos (le_refl pos) (by omega) (by omega)
      simp only [unrefGarbage]
      rw [hhead, hT]
      omega

theorem unrefGarbage_le_total (idx : Idx) :
    ∀ (rs : List LogRecord) (pos : Nat), unrefGarbage idx pos rs ≤ totalSize rs := by
  intro rs
  induction rs with
  | nil => intro pos; simp [unrefGarbage, totalSize]
  | cons r rs ih =>
    intro pos
    simp only [unrefGarbage, totalSize]
    have h := ih (pos + recSize r)
    split <;> omega

theorem replay_dels (rs : List LogRecord) :
    (replayRecs rs ⟨0, [], 0, 0⟩).dels =
      unrefGarbage (replayRecs rs ⟨0, [], 0, 0⟩).idx 0 rs := by
  induction rs using List.reverseRecOn with
  | nil => rfl
  | append_singleton rs r ih =>
    have hstep : replayRecs (rs ++ [r]) ⟨0, [], 0, 0⟩ =
        repStep (replayRecs rs ⟨0, [], 0, 0⟩) r := by
      rw [replayRecs_append]
      rfl
    have hpos : (replayRecs rs ⟨0, [], 0, 0⟩).pos = totalSize rs := by
      rw [replay_pos]
      simp
    have hnd : (((replayRecs rs ⟨0, [], 0, 0⟩).idx).map Prod.fst).Nodup :=
      replay_nodup rs ⟨0, [], 0, 0⟩ (by simp)
    rw [hstep]
    simp only [repStep, hpos]
    rw [unrefGarbage_append]
    simp only [Nat.zero_add]
    have hrefnew : referencedBy (aset (replayRecs rs ⟨0, [], 0, 0⟩).idx r.key
        (totalSize rs, recSize r, r.ts)) (totalSize rs) = true :=
      (referencedBy_iff _ _).mpr
        ⟨(r.key, (totalSize rs, recSize r, r.ts)), aset_self_mem r.key _ _, rfl⟩
    simp only [unrefGarbage, hrefnew, if_true]
    rw [ih]
    simp only [Nat.add_zero]
    cases halk : alookup (replayRecs rs ⟨0, [], 0, 0⟩).idx r.key with
    | none =>
      have hold : oldSize (replayRecs rs ⟨0, [], 0, 0⟩).idx r.key = 0 := by
        simp [oldSize, halk]
      have hmem : r.key ∉ ((replayRecs rs ⟨0, [], 0, 0⟩).idx).map Prod.fst :=
        (alookup_eq_none_iff _ _).mp halk
      rw [hold, Nat.add_zero, aset_append_of_not_mem _ hmem]
      refine unrefGarbage_congr _ _ rs 0 ?_
      intro p _ hp2
      rw [referencedBy_append_single]
      have hne : ((r.key, ((totalSize rs, recSize r, r.ts) : Entry)) :
          List Nat × Entry).2.1 ≠ p := by
        have h9 : totalSize rs ≠ p := by omega
        exact h9
      rw [decide_eq_false hne, Bool.or_false]
    | some eOld =>
      obtain ⟨opos, osz, ots⟩ := eOld
      have hold : oldSize (replayRecs rs ⟨0, [], 0, 0⟩).idx r.key = osz := by
        simp [oldSize, halk]
      rw [hold]
      have hlast : lastEntryFrom 0 r.key rs = some (opos, osz, ots) := by
        have harep : alookup (replayRecs rs ⟨0, [], 0, 0⟩).idx r.key =
            match lastEntryFrom 0 r.key rs with
            | some e2 => some e2
            | none => alookup ([] : Idx) r.key := alookup_replay rs ⟨0, [], 0, 0⟩ r.key
        cases hl : lastEntryFrom 0 r.key rs with
        | some e2 =>
          rw [hl, halk] at harep
          have h2 : (some (opos, osz, ots) : Option Entry) = some e2 := harep
          injection h2 with h3
          rw [← h3]
        | none =>
          rw [hl, halk] at harep
          have h2 : (some (opos, osz, ots) : Option Entry) = none := harep
          exact Option.noConfusion h2
      obtain ⟨j0, hj0, hkey0, hoffp, hszp⟩ :=
        lastEntryFrom_index rs 0 r.key (opos, osz, ots) hlast
      have hoff2 : opos = 0 + totalSize (rs.take j0) := hoffp
      have hsz2 : osz = recSize (rs.get ⟨j0, hj0⟩) := hszp
      have hidxpos : ∀ (kq : List Nat) (eq2 : Entry),
          alookup (replayRecs rs ⟨0, [], 0, 0⟩).idx kq = some eq2 →
          ∃ j, ∃ hj : j < rs.length, (rs.get ⟨j, hj⟩).key = kq ∧
            eq2.1 = 0 + totalSize (rs.take j) := by
        intro kq eq2 he
        have harep : alookup (replayRecs rs ⟨0, [], 0, 0⟩).idx kq =
            match lastEntryFrom 0 kq rs with
            | some e2 => some e2
            | none => alookup ([] : Idx) kq := alookup_replay rs ⟨0, [], 0, 0⟩ kq
        cases hl : lastEntryFrom 0 kq rs with
        | some e2 =>
          rw [hl, he] at harep
          have h2 : (some eq2 : Option Entry) = some e2 := harep
          injection h2 with h3
          obtain ⟨j, hj, hk1, hp1, _⟩ := lastEntryFrom_index rs 0 kq e2 hl
          refine ⟨j, hj, hk1, ?_⟩
          rw [h3]
          exact hp1
        | none =>
          rw [hl, he] at harep
          have h2 : (some eq2 : Option Entry) = none := harep
          exact Option.noConfusion h2
      have href1 : referencedBy (replayRecs rs ⟨0, [], 0, 0⟩).idx
          (0 + totalSize (rs.take j0)) = true :=
        (referencedBy_iff _ _).mpr ⟨(r.key, (opos, osz, ots)), alookup_mem halk, hoff2⟩
      have href2 : referencedBy (aset (replayRecs rs ⟨0, [], 0, 0⟩).idx r.key
          (totalSize rs, recSize r, r.ts)) (0 + totalSize (rs.take j0)) = false := by
        rw [Bool.eq_false_iff]
        intro htrue
        obtain ⟨q, hqmem, hqp⟩ := (referencedBy_iff _ _).mp htrue
        rcases aset_mem_strong r.key _ _ q hnd hqmem with rfl | ⟨hqidx, hqne⟩
        · have h4 : totalSize rs = 0 + totalSize (rs.take j0) := hqp
          have h5 : totalSize (rs.take j0) < totalSize rs := by
            have h6 := totalSize_take_lt rs rs.length j0 hj0 (le_refl rs.length)
            rwa [List.take_length] at h6
          omega
        · obtain ⟨kq, eq2⟩ := q
          have halq : alookup (replayRecs rs ⟨0, [], 0, 0⟩).idx kq = some eq2 :=
            alookup_of_mem_nodup hnd hqidx
          obtain ⟨j1, hj1, hk1, hp1⟩ := hidxpos kq eq2 halq
          have hqp2 : eq2.1 = 0 + totalSize (rs.take j0) := hqp
          have hjeq : j1 = j0 := by
            by_contra hne2
            rcases Nat.lt_or_ge j1 j0 with hlt | hge
            · have h6 := totalSize_take_lt rs j0 j1 hlt (le_of_lt hj0)
              omega
            · have hgt : j0 < j1 := by omega
              have h6 := totalSize_take_lt rs j1 j0 hgt (le_of_lt hj1)
              omega
          subst hjeq
          have hkk : kq = r.key := by
            rw [← hk1, ← hkey0]
          exact hqne hkk
      have hcong : ∀ p, 0 ≤ p → p < 0 + totalSize rs →
          p ≠ 0 + totalSize (rs.take j0) →
          referencedBy (replayRecs rs ⟨0, [], 0, 0⟩).idx p =
            referencedBy (aset (replayRecs rs ⟨0, [], 0, 0⟩).idx r.key
              (totalSize rs, recSize r, r.ts)) p := by
        intro p _ hp2 hp3
        cases hb1 : referencedBy (replayRecs rs ⟨0, [], 0, 0⟩).idx p with
        | true =>
          obtain ⟨q, hqmem, hqp⟩ := (referencedBy_iff _ _).mp hb1
          obtain ⟨kq, eq2⟩ := q
          have halq : alookup (replayRecs rs ⟨0, [], 0, 0⟩).idx kq = some eq2 :=
            alookup_of_mem_nodup hnd hqmem
          have hqp2 : eq2.1 = p := hqp
          have hkqne : kq ≠ r.key := by
            intro hkq
            rw [hkq, halk] at halq
            have h2 : (some (opos, osz, ots) : Option Entry) = some eq2 := halq
            injection h2 with h3
            have h4 : eq2.1 = opos := by rw [← h3]
            omega
          have hmem2 : ((kq, eq2) : List Nat × Entry) ∈
              aset (replayRecs rs ⟨0, [], 0, 0⟩).idx r.key
                (totalSize rs, recSize r, r.ts) :=
            aset_mem_of_ne _ r.key _ (kq, eq2) hqmem hkqne
          exact ((referencedBy_iff _ _).mpr ⟨(kq, eq2), hmem2, hqp⟩).symm
        | false =>
          cases hb2 : referencedBy (aset (replayRecs rs ⟨0, [], 0, 0⟩).idx r.key
              (totalSize rs, recSize r, r.ts)) p with
          | false => rfl
          | true =>
            obtain ⟨q, hqmem, hqp⟩ := (referencedBy_iff _ _).mp hb2
            rcases aset_mem_strong r.key _ _ q hnd hqmem with rfl | ⟨hqidx, _⟩
            · have h4 : totalSize rs = p := hqp
              omega
            · have h5 := (referencedBy_iff _ _).mpr ⟨q, hqidx, hqp⟩
              rw [hb1] at h5
              exact Bool.noConfusion h5
      rw [hsz2]
      exact (unrefGarbage_flip _ _ rs 0 j0 hj0 _ _ rfl rfl hcong href1 href2).symm

/-- C8: after any successful sequence of put, delete, batch-put and reopen
operations from a fresh store (no compaction in flight — each operation
finishes before the next), the log file decodes into complete records;
`data_size` equals the file's byte length, `deleted_size` equals the sum of
the lengths of the decoded records whose offset no current index entry
references, and `deleted_size ≤ data_size`. -/
theorem c8_counter_consistency (ops : List StoreOp)
    (hok : ∀ op ∈ ops, OpOK op) :
    ∃ s, applyOps freshStore ops = .ok s ∧
      ∃ rs, decodeFile s.file = some rs ∧
        s.data_size = s.file.length ∧
        s.deleted_size = unrefGarbage s.keys 0 rs ∧
        s.deleted_size ≤ s.data_size := by
  obtain ⟨s, rs, happ, hinv⟩ := SInv_applyOps ops SInv_fresh hok
  have hdels2 : (replayRecs rs ⟨0, [], 0, 0⟩).dels = s.deleted_size :=
    congrArg RepSt.dels hinv.2.2.2
  have hidx2 : (replayRecs rs ⟨0, [], 0, 0⟩).idx = s.keys :=
    congrArg RepSt.idx hinv.2.2.2
  have hgarb : s.deleted_size = unrefGarbage s.keys 0 rs := by
    rw [← hdels2, replay_dels, hidx2]
  refine ⟨s, happ, rs, ?_, SInv_data hinv, hgarb, ?_⟩
  · rw [hinv.2.1]
    exact decodeFile_encodeAll rs hinv.1
  · have h1 := unrefGarbage_le_total s.keys rs 0
    have h2 := SInv_total hinv
    omega

/-- Witness for `c8_counter_consistency`: a concrete two-operation sequence
(two puts of the same key, creating one garbage record) satisfying its
hypothesis. -/
theorem c8_witness :
    (∀ op ∈ [StoreOp.put 0 (ascii "a") (ascii "1"),
        StoreOp.put 1 (ascii "a") (ascii "2")], OpOK op) ∧
    ∃ s, applyOps freshStore [StoreOp.put 0 (ascii "a") (ascii "1"),
        StoreOp.put 1 (ascii "a") (ascii "2")] = .ok s ∧
      ∃ rs, decodeFile s.file = some rs ∧
        s.data_size = s.file.length ∧
        s.deleted_size = unrefGarbage s.keys 0 rs ∧
        s.deleted_size ≤ s.data_size := by
  have hok : ∀ op ∈ [StoreOp.put 0 (ascii "a") (ascii "1"),
      StoreOp.put 1 (ascii "a") (ascii "2")], OpOK op := by
    intro op hop
    simp only [List.mem_cons, List.not_mem_nil, or_false] at hop
    rcases hop with rfl | rfl
    · exact ⟨by norm_num, by decide, by decide⟩
    · exact ⟨by norm_num, by decide, by decide⟩
  exact ⟨hok, c8_counter_consistency _ hok⟩
